import Mathlib

/-!
A shallow embedding of `fix-header-guard.c`

The program rewrites the include guard of C header files.  This file embeds
`remove_prefix`, the guard-token loop, the line-by-line rewrite of
`process_file`, `parse_args` and the driver loop of `main` as Lean functions
and proves properties of them.

Conventions.

* A byte is a natural number (`Byte`); the values a C `char` can hold are the
  ones below 256, and the functions below leave larger values alone.
* A C string (`CStr`) is represented by the list of its bytes *before* the
  terminating NUL.  Paths, the base and string literals are C strings.
* A buffer filled by `getline` may contain NUL bytes; `cstr` gives the C
  string a `char *` to such a buffer denotes (its bytes up to the first NUL).
* A file on disk is the list of its bytes; the file system maps a path to the
  content of the file there, or to `none` when `fopen(path, "rb")` fails.
* Distinct canonical paths name distinct files: hard links are not modelled.
* Failures of the C library that do not depend on the file content
  (allocation, read errors, flush, close, reopen, write) are injected through
  a `Faults` record, so that every error branch of the source is reachable.
-/

namespace FixHeaderGuard

/-! ## Bytes and C strings -/

/-- A byte of a C string or of a file. -/
abbrev Byte := Nat

/-- A C string: its bytes before the terminating NUL. -/
abbrev CStr := List Byte

/-- A canonical path, as returned by `realpath`. -/
abbrev Path := List Byte

/-- The bytes of an ASCII string literal. -/
def bytes (s : String) : List Byte := s.toList.map Char.toNat

/-- The C string a pointer to the buffer `buf` denotes: the bytes of `buf`
up to, and without, its first NUL byte. -/
def cstr (buf : List Byte) : CStr := buf.takeWhile (fun b => b != 0)

/-- The function `strlen`. -/
def strlen (s : CStr) : Nat := s.length

/-- The test `strncmp(a, b, n) == 0` on two C strings: at most `n` bytes are
compared, and the comparison stops at a terminating NUL. -/
def strncmp_eq : CStr → CStr → Nat → Bool
  | _, _, 0 => true
  | [], [], _ + 1 => true
  | [], _ :: _, _ + 1 => false
  | _ :: _, [], _ + 1 => false
  | x :: xs, y :: ys, n + 1 => x == y && strncmp_eq xs ys n

/-- The function `toupper` in the "C" locale (the program never calls
`setlocale`): the letters `a`..`z` go to `A`..`Z`, all else is unchanged. -/
def toupper (c : Byte) : Byte := if 97 ≤ c ∧ c ≤ 122 then c - 32 else c

/-! ## `remove_prefix` and the guard token (lines 60-67 and 85-99) -/

/-- The function `remove_prefix`: `some (str + n)` when the first
`n = strlen(prefix)` bytes of `str` compare equal to `prefix`, `none` for the
`NULL` result. -/
def remove_prefix (str pre : CStr) : Option CStr :=
  let n := strlen pre
  if strncmp_eq str pre n then some (str.drop n) else none

/-- One step of the loop of lines 94-99: `*p = toupper(*p)`, then `*p = '_'`
when the result is `/` or `.`. -/
def guard_byte (c : Byte) : Byte :=
  let u := toupper c
  if u = 47 ∨ u = 46 then 95 else u

/-- Lines 85-99 of `process_file`: the guard token of `file` under `base`, or
`none` when either `remove_prefix` call returns `NULL`. -/
def header_guard (base file : CStr) : Option CStr :=
  match remove_prefix file base with
  | none => none
  | some s =>
    match remove_prefix s (bytes "/") with
    | none => none
    | some s => some (s.map guard_byte)

/-- The guard token in the words of the specification: every character of the
path remainder upper-cased, then every `/` or `.` replaced with `_`. -/
def token_spec (rest : CStr) : CStr :=
  (rest.map toupper).map (fun c => if c = 47 ∨ c = 46 then 95 else c)

/-! ## Reading a file line by line -/

/-- The lines successive `getline` calls return on a stream with content
`c`: every line keeps its terminating newline, and the last line is the only
one that may lack it. -/
def split_lines : List Byte → List (List Byte)
  | [] => []
  | b :: rest =>
    if b = 10 then [b] :: split_lines rest
    else
      match split_lines rest with
      | [] => [[b]]
      | l :: ls => (b :: l) :: ls

/-- A line that ends with its newline, the only one it holds. -/
def full_line (l : List Byte) : Prop := ∃ u, 10 ∉ u ∧ l = u ++ [10]

/-- What one `getline` call finds: a line, or a read error. -/
inductive ReadEvent where
  | line (l : List Byte)
  | error
  deriving DecidableEq, Repr

/-- An input stream: the events its `getline` calls meet, in order.  A call
on the empty stream returns `-1` with the end-of-file indicator set. -/
abbrev Stream := List ReadEvent

/-- The result of one `getline` call. -/
inductive Getline where
  | ok (line : List Byte) (rest : Stream)
  | eof
  | error
  deriving DecidableEq, Repr

/-- One `getline` call on a stream. -/
def getline : Stream → Getline
  | [] => .eof
  | .error :: _ => .error
  | .line l :: rest => .ok l rest

/-- The stream `fopen(file, "rb")` gives for a file with content `c`, when the
`getline` call number `readAt` (counted from 0) fails with a read error. -/
def open_stream (c : List Byte) (readAt : Option Nat) : Stream :=
  let ls := (split_lines c).map ReadEvent.line
  match readAt with
  | none => ls
  | some k => if k ≤ ls.length then ls.take k ++ [ReadEvent.error] else ls

/-! ## The file system and the faults of the C library -/

/-- The file system: the content of the file at a path, `none` when the file
cannot be opened for reading. -/
abbrev FS := Path → Option (List Byte)

/-- The file system after the file at `p` got the content `c`. -/
def FS.store (fs : FS) (p : Path) (c : List Byte) : FS :=
  fun q => if q = p then some c else fs q

/-- A file system with one file, of content `c`, at the path `p`. -/
def FS.single (p : Path) (c : List Byte) : FS :=
  fun q => if q = p then some c else none

/-- Library failures during one call of `process_file`. -/
structure Faults where
  /-- `open_memstream` returns `NULL`. -/
  memstream : Bool
  /-- The number of the `getline` call that fails with a read error. -/
  readAt : Option Nat
  /-- The call `fflush(tmp)` fails. -/
  flush : Bool
  /-- The call `fclose(f)` of line 195 fails. -/
  close : Bool
  /-- The call `fopen(file, "wb")` returns `NULL`. -/
  reopen : Bool
  /-- The commit fails after this many bytes reached the disk. -/
  write : Option Nat
  deriving DecidableEq, Repr

/-- No library failure. -/
def Faults.clean : Faults :=
  { memstream := false, readAt := none, flush := false, close := false,
    reopen := false, write := none }

/-- How a call of `process_file` ends: `ok` after the commit, otherwise the
`goto exit` that was taken, named after its diagnostic. -/
inductive Status where
  | ok
  | notUnderBase
  | openFailed
  | memstreamFailed
  | readFailed (eof : Bool)
  | badFirstLine
  | badSecondLine
  | badLastLine
  | flushFailed
  | closeFailed
  | reopenFailed
  | writeFailed
  deriving DecidableEq, Repr

/-- The calls that open or write the file on disk. -/
inductive Op where
  | openRead
  | openWrite
  | write
  deriving DecidableEq, Repr

/-- The result of a call of `process_file`: how it ended, the file system it
leaves, and the opens and writes of the file it made, in order. -/
structure Outcome where
  status : Status
  fs : FS
  ops : List Op

/-! ## `process_file` (lines 69-234) -/

/-- The loop of lines 162-167, started with `line1` pending and `tmp` the
bytes written to the memory stream so far.  Each line read makes
`fprintf(tmp, "%s", line1)` emit the pending line as a C string and becomes
the pending line.  The result is the last pending line, the memory stream,
and `feof(f)` after the `getline` call that returned `-1`. -/
def copy_loop : Stream → List Byte → List Byte → List Byte × List Byte × Bool
  | [], line1, tmp => (line1, tmp, true)
  | .error :: _, line1, tmp => (line1, tmp, false)
  | .line line2 :: s, line1, tmp => copy_loop s line2 (tmp ++ cstr line1)

/-- The check of line 128, `strncmp(line1, "#ifndef ", 7) == 0`. -/
def first_line_ok (line1 : List Byte) : Bool :=
  strncmp_eq (cstr line1) (bytes "#ifndef ") 7

/-- The check of line 145, `strncmp(line1, "#define ", 7) == 0`. -/
def second_line_ok (line1 : List Byte) : Bool :=
  strncmp_eq (cstr line1) (bytes "#define ") 7

/-- The check of line 175, `strncmp(line1, "#endif ", 7) == 0`. -/
def last_line_ok (line1 : List Byte) : Bool :=
  strncmp_eq (cstr line1) (bytes "#endif ") 7

/-- Lines 122-190 of `process_file`: the rewrite of the stream `s` into the
memory stream, for the guard token `guard`.  The result is the content of the
memory stream after `fflush`, or the error exit taken. -/
def rewrite (flt : Faults) (guard : CStr) (s : Stream) : Except Status (List Byte) :=
  match getline s with
  | .eof => .error (.readFailed true)
  | .error => .error (.readFailed false)
  | .ok line1 s =>
    if !first_line_ok line1 then .error .badFirstLine
    else
      let tmp := bytes "#ifndef " ++ guard ++ bytes "\n"
      match getline s with
      | .eof => .error (.readFailed true)
      | .error => .error (.readFailed false)
      | .ok line1 s =>
        if !second_line_ok line1 then .error .badSecondLine
        else
          let tmp := tmp ++ (bytes "#define " ++ guard ++ bytes "\n")
          match getline s with
          | .eof => .error (.readFailed true)
          | .error => .error (.readFailed false)
          | .ok line1 s =>
            match copy_loop s line1 tmp with
            | (line1, tmp, feof) =>
              if !feof then .error (.readFailed false)
              else if !last_line_ok line1 then .error .badLastLine
              else
                let tmp := tmp ++ (bytes "#endif // " ++ guard ++ bytes "\n")
                if flt.flush then .error .flushFailed else .ok tmp

/-- Lines 195-214 of `process_file`: close the input, reopen the file for
writing (which truncates it) and write the memory stream `buf`.  The closes of
the exit label (lines 219-230) are taken to succeed and a write failure is one
that `fwrite` reports: a failing `fclose` at the label jumps back to the label
and closes the same stream again, which is undefined behaviour and has no
counterpart here. -/
def commit (flt : Faults) (file : Path) (fs : FS) (buf : List Byte) : Outcome :=
  if flt.close then ⟨.closeFailed, fs, [.openRead]⟩
  else if flt.reopen then ⟨.reopenFailed, fs, [.openRead, .openWrite]⟩
  else
    match flt.write with
    | some k => ⟨.writeFailed, fs.store file (buf.take k), [.openRead, .openWrite, .write]⟩
    | none => ⟨.ok, fs.store file buf, [.openRead, .openWrite, .write]⟩

/-- The function `process_file`. -/
def process_file (flt : Faults) (base : CStr) (file : Path) (fs : FS) : Outcome :=
  match header_guard base file with
  | none => ⟨.notUnderBase, fs, []⟩
  | some guard =>
    match fs file with
    | none => ⟨.openFailed, fs, [.openRead]⟩
    | some content =>
      if flt.memstream then ⟨.memstreamFailed, fs, [.openRead]⟩
      else
        match rewrite flt guard (open_stream content flt.readAt) with
        | .error e => ⟨e, fs, [.openRead]⟩
        | .ok buf => commit flt file fs buf

/-- The memory stream after a successful rewrite of a file whose lines
between the second and the last are `mid`: the two guard lines, the lines of
`mid` as `fprintf(tmp, "%s", line1)` prints them, and the `#endif` line. -/
def rewritten (guard : CStr) (mid : List (List Byte)) : List Byte :=
  bytes "#ifndef " ++ guard ++ bytes "\n" ++ (bytes "#define " ++ guard ++ bytes "\n") ++
    (mid.map cstr).flatten ++ (bytes "#endif // " ++ guard ++ bytes "\n")

/-! ## `parse_args` (lines 20-58) and `main` (lines 236-241) -/

/-- The globals `parse_args` updates: the argument vector (which `files`
aliases, so the file list is built in place), `base` (`none` for the `NULL`
it starts as) and `file_count`. -/
structure ParseState where
  argv : List CStr
  base : Option CStr
  file_count : Nat
  deriving DecidableEq, Repr

/-- The file list `files[0..file_count)` that `main` walks. -/
def ParseState.files (st : ParseState) : List Path := st.argv.take st.file_count

/-- How the loop of `parse_args` ends: it falls through with the final
globals, or it calls `exit(EXIT_FAILURE)` (directly or through `usage`).
The third value marks a run of the model that was given too little fuel. -/
inductive Parse where
  | done (st : ParseState)
  | exit_failure
  | out_of_fuel
  deriving DecidableEq, Repr

/-- The loop of lines 23-57, from index `i`, with `fuel` iterations allowed.
The oracle `realpath` gives the canonical path of an argument, `none` when
the C function returns `NULL`. -/
def parse_loop (realpath : CStr → Option Path) (argc : Nat) :
    Nat → Nat → ParseState → Parse
  | 0, i, st => if i < argc then .out_of_fuel else .done st
  | fuel + 1, i, st =>
    if i < argc then
      let arg := st.argv.getD i []
      if arg = bytes "-b" ∨ arg = bytes "--base" then
        let i := i + 1
        if i = argc then .exit_failure
        else if st.base.isSome then .exit_failure
        else
          match realpath (st.argv.getD i []) with
          | none => .exit_failure
          | some path =>
            parse_loop realpath argc fuel (i + 1)
              { st with base := some (if path ≠ bytes "/" then path else bytes "") }
      else
        match realpath arg with
        | none => parse_loop realpath argc fuel (i + 1) st
        | some path =>
          parse_loop realpath argc fuel (i + 1)
            { st with argv := st.argv.set st.file_count path,
                      file_count := st.file_count + 1 }
    else .done st

/-- The function `parse_args` on a fresh process (`base` is `NULL` and
`file_count` is 0).  Every iteration advances `i`, so `argc` iterations are
enough. -/
def parse_args (realpath : CStr → Option Path) (argv : List CStr) : Parse :=
  parse_loop realpath argv.length argv.length 1 ⟨argv, none, 0⟩

/-- The loop of lines 239-240 from index `i` on, over the files from `i` on;
`flt i` are the library failures during iteration `i`. -/
def main_loop (flt : Nat → Faults) (base : CStr) : Nat → List Path → FS → FS
  | _, [], fs => fs
  | i, file :: rest, fs =>
    main_loop flt base (i + 1) rest (process_file (flt i) base file fs).fs

/-- How the process ends: with an exit status, or in the undefined behaviour
of `strlen(NULL)`, which `remove_prefix` reaches when `base` is `NULL`. -/
inductive Exit where
  | status (code : Nat)
  | crash
  deriving DecidableEq, Repr

/-- The function `main`: the way the process ends and the file system it
leaves.  `EXIT_FAILURE` is 1, and falling off the end of `main` returns 0. -/
def main (realpath : CStr → Option Path) (flt : Nat → Faults) (argv : List CStr)
    (fs : FS) : Exit × FS :=
  match parse_args realpath argv with
  | .out_of_fuel => (.crash, fs)
  | .exit_failure => (.status 1, fs)
  | .done st =>
    match st.files, st.base with
    | [], _ => (.status 0, fs)
    | _ :: _, none => (.crash, fs)
    | files, some base => (.status 0, main_loop flt base 0 files fs)

/-- One iteration of the loop of lines 23-57. -/
inductive Step where
  | next (i : Nat) (st : ParseState)
  | exit_failure
  deriving DecidableEq, Repr

/-- The body of the loop of lines 23-57 at index `i`, followed by the `++i`
of the loop: the index and the globals the next iteration starts with, or
the call of `exit(EXIT_FAILURE)`. -/
def parse_step (realpath : CStr → Option Path) (argc : Nat) (i : Nat) (st : ParseState) :
    Step :=
  let arg := st.argv.getD i []
  if arg = bytes "-b" ∨ arg = bytes "--base" then
    let i := i + 1
    if i = argc then .exit_failure
    else if st.base.isSome then .exit_failure
    else
      match realpath (st.argv.getD i []) with
      | none => .exit_failure
      | some path =>
        .next (i + 1) { st with base := some (if path ≠ bytes "/" then path else bytes "") }
  else
    match realpath arg with
    | none => .next (i + 1) st
    | some path =>
      .next (i + 1)
        { st with argv := st.argv.set st.file_count path,
                  file_count := st.file_count + 1 }

/-- The index and the globals at the head of iteration number `n` (counted
from 0) of the loop of `parse_args`, `none` when the loop has ended before. -/
def parse_iter (realpath : CStr → Option Path) (argv : List CStr) :
    Nat → Option (Nat × ParseState)
  | 0 => some (1, ⟨argv, none, 0⟩)
  | n + 1 =>
    match parse_iter realpath argv n with
    | none => none
    | some (i, st) =>
      if i < argv.length then
        match parse_step realpath argv.length i st with
        | .next j st2 => some (j, st2)
        | .exit_failure => none
      else none

/-- The invariant of the loop of `parse_args` on the command line `args`, at
the head of an iteration with index `i`: the file list is shorter than the
number of arguments read, the vector has kept its length, and the arguments
from `i` on are the original ones. -/
def parse_inv (args : List CStr) (i : Nat) (st : ParseState) : Prop :=
  1 ≤ i ∧ st.file_count < i ∧ st.argv.length = args.length ∧ st.argv.drop i = args.drop i

/-! ## The command line in the words of the specification -/

/-- The arguments that are neither a `-b`/`--base` flag nor the value that
follows one, in command-line order. -/
def file_args : List CStr → List CStr
  | [] => []
  | [a] => if a = bytes "-b" ∨ a = bytes "--base" then [] else [a]
  | a :: v :: rest =>
    if a = bytes "-b" ∨ a = bytes "--base" then file_args rest
    else a :: file_args (v :: rest)

/-- The value of the first `-b`/`--base` flag: the argument that follows
it. -/
def base_arg : List CStr → Option CStr
  | [] => none
  | [_] => none
  | a :: v :: rest =>
    if a = bytes "-b" ∨ a = bytes "--base" then some v else base_arg (v :: rest)

/-- The fatal uses of the flag: some `-b`/`--base` flag is the last argument,
or it comes when a base is set already (`set`), or the argument that follows
it cannot be canonicalized.  An argument that is a FILE plays no part. -/
def fatal_args (realpath : CStr → Option Path) : List CStr → Bool → Bool
  | [], _ => false
  | [a], _ => decide (a = bytes "-b" ∨ a = bytes "--base")
  | a :: v :: rest, set =>
    if a = bytes "-b" ∨ a = bytes "--base" then
      set || (realpath v).isNone || fatal_args realpath rest true
    else fatal_args realpath (v :: rest) set

/-- The effective base for a canonical base path: the empty string for the
root, the path itself otherwise. -/
def effective_base (path : Path) : CStr := if path = bytes "/" then bytes "" else path

/-- A blank line: a line of white space only (space, tab, CR, LF). -/
def blank_line (l : List Byte) : Bool := l.all (fun b => b = 32 || b = 9 || b = 13 || b = 10)

/-- The loop of lines 162-167 as a machine on lines whose state is the
pending line: each line read emits the pending line and becomes the pending
line.  The result is the list of the lines emitted and the last pending line. -/
def lookahead : List (List Byte) → List Byte → List (List Byte) →
    List (List Byte) × List Byte
  | [], pending, emitted => (emitted, pending)
  | l :: ls, pending, emitted => lookahead ls l (emitted ++ [pending])

/-- The direct definition of what the loop computes on the lines `r1 :: rs`
that follow the two guard lines: all lines but the last are emitted, the last
line is pending. -/
def lookahead_spec (r1 : List Byte) (rs : List (List Byte)) : List (List Byte) × List Byte :=
  ((r1 :: rs).dropLast, (r1 :: rs).getLast (List.cons_ne_nil r1 rs))

/-! ## Lemmas on C strings and `remove_prefix` -/

theorem strncmp_eq_iff (a b : CStr) (n : Nat) :
    strncmp_eq a b n = true ↔ a.take n = b.take n := by
  induction n generalizing a b with
  | zero => simp [strncmp_eq]
  | succ n ih =>
    cases a with
    | nil => cases b <;> simp [strncmp_eq]
    | cons x xs =>
      cases b with
      | nil => simp [strncmp_eq]
      | cons y ys => simp [strncmp_eq, ih]

theorem remove_prefix_eq_some_iff (str pre r : CStr) :
    remove_prefix str pre = some r ↔ str = pre ++ r := by
  unfold remove_prefix strlen
  by_cases h : strncmp_eq str pre pre.length = true
  · rw [if_pos h]
    rw [strncmp_eq_iff, List.take_length] at h
    constructor
    · intro hr
      have hr2 : List.drop pre.length str = r := by simpa using hr
      have hsplit := List.take_append_drop pre.length str
      rw [h, hr2] at hsplit
      exact hsplit.symm
    · intro hs
      subst hs
      simp
  · rw [if_neg h]
    rw [strncmp_eq_iff, List.take_length] at h
    constructor
    · intro hr
      cases hr
    · intro hs
      subst hs
      exact absurd (by simp) h

theorem remove_prefix_eq_none_iff (str pre : CStr) :
    remove_prefix str pre = none ↔ ¬ pre <+: str := by
  constructor
  · intro h hp
    obtain ⟨r, hr⟩ := hp
    have := (remove_prefix_eq_some_iff str pre r).2 hr.symm
    rw [h] at this
    cases this
  · intro h
    cases hrp : remove_prefix str pre with
    | none => rfl
    | some r =>
      exact absurd ⟨r, ((remove_prefix_eq_some_iff str pre r).1 hrp).symm⟩ h

theorem header_guard_eq_some_iff (base file g : CStr) :
    header_guard base file = some g ↔
      ∃ rest, file = base ++ bytes "/" ++ rest ∧ g = rest.map guard_byte := by
  unfold header_guard
  constructor
  · intro h
    cases h1 : remove_prefix file base with
    | none => rw [h1] at h; cases h
    | some s =>
      simp only [h1] at h
      cases h2 : remove_prefix s (bytes "/") with
      | none => simp only [h2] at h; cases h
      | some r =>
        simp only [h2] at h
        rw [remove_prefix_eq_some_iff] at h1 h2
        refine ⟨r, ?_, ?_⟩
        · rw [h1, h2, List.append_assoc]
        · simpa using h.symm
  · rintro ⟨rest, hf, hg⟩
    have h1 : remove_prefix file base = some (bytes "/" ++ rest) :=
      (remove_prefix_eq_some_iff _ _ _).2 (by rw [hf, List.append_assoc])
    have h2 : remove_prefix (bytes "/" ++ rest) (bytes "/") = some rest :=
      (remove_prefix_eq_some_iff _ _ _).2 rfl
    rw [h1]
    simp only [h2, hg]

theorem header_guard_eq_none_iff (base file : CStr) :
    header_guard base file = none ↔ ¬ (base ++ bytes "/") <+: file := by
  constructor
  · intro h hp
    obtain ⟨r, hr⟩ := hp
    have := (header_guard_eq_some_iff base file (r.map guard_byte)).2 ⟨r, hr.symm, rfl⟩
    rw [h] at this
    cases this
  · intro h
    cases hg : header_guard base file with
    | none => rfl
    | some g =>
      obtain ⟨rest, hf, _⟩ := (header_guard_eq_some_iff base file g).1 hg
      exact absurd ⟨rest, hf.symm⟩ h

/-! ## C1: the guard token -/

/-- C1: when the path is `base`, one `/` and a remainder, the token of
`process_file` is the remainder with every byte upper-cased and every `/` or `.`
replaced by `_`; base `/a/b` gives `C_D_H` for `/a/b/c/d.h` and `X_Y_H` for
`/a/b/x.y.h`. -/
theorem header_guard_token (base rest : CStr) :
    header_guard base (base ++ bytes "/" ++ rest) = some (token_spec rest) ∧
    header_guard (bytes "/a/b") (bytes "/a/b/c/d.h") = some (bytes "C_D_H") ∧
    header_guard (bytes "/a/b") (bytes "/a/b/x.y.h") = some (bytes "X_Y_H") := by
  refine ⟨?_, by decide, by decide⟩
  rw [header_guard_eq_some_iff]
  refine ⟨rest, rfl, ?_⟩
  simp [token_spec, List.map_map, Function.comp_def, guard_byte]

/-! ## Lemmas on the line checks -/

theorem cstr_take_eq_iff (w l : List Byte) (hw : 0 ∉ w) :
    (cstr l).take w.length = w ↔ l.take w.length = w := by
  induction w generalizing l with
  | nil => simp
  | cons a w ih =>
    have ha : a ≠ 0 := fun h => hw (by simp [h])
    have hw2 : 0 ∉ w := fun h => hw (by simp [h])
    cases l with
    | nil => simp [cstr]
    | cons x xs =>
      by_cases hx : x = 0
      · subst hx
        simp [cstr, List.takeWhile_cons]
        intro h
        exact absurd h.symm ha
      · have hc : cstr (x :: xs) = x :: cstr xs := by
          simp [cstr, List.takeWhile_cons, hx]
        rw [hc]
        simp only [List.length_cons, List.take_succ_cons, List.cons.injEq]
        rw [ih xs hw2]

theorem first_line_ok_iff (l : List Byte) :
    first_line_ok l = true ↔ l.take 7 = bytes "#ifndef" := by
  unfold first_line_ok
  rw [strncmp_eq_iff]
  exact cstr_take_eq_iff (bytes "#ifndef") l (by decide)

theorem second_line_ok_iff (l : List Byte) :
    second_line_ok l = true ↔ l.take 7 = bytes "#define" := by
  unfold second_line_ok
  rw [strncmp_eq_iff]
  exact cstr_take_eq_iff (bytes "#define") l (by decide)

theorem last_line_ok_iff (l : List Byte) :
    last_line_ok l = true ↔ l.take 7 = bytes "#endif " := by
  unfold last_line_ok
  rw [strncmp_eq_iff]
  exact cstr_take_eq_iff (bytes "#endif ") l (by decide)

theorem cstr_eq_self (l : List Byte) (h : 0 ∉ l) : cstr l = l := by
  unfold cstr
  rw [List.takeWhile_eq_self_iff]
  intro x hx
  have : x ≠ 0 := fun h0 => h (h0 ▸ hx)
  simpa using this

/-! ## Lemmas on the rewrite -/

theorem copy_loop_lines (mid : List (List Byte)) (ll p tmp : List Byte) :
    copy_loop ((mid ++ [ll]).map ReadEvent.line) p tmp =
      (ll, tmp ++ cstr p ++ (mid.map cstr).flatten, true) := by
  induction mid generalizing p tmp with
  | nil => simp [copy_loop]
  | cons m mid ih =>
    show copy_loop (List.map ReadEvent.line (mid ++ [ll])) m (tmp ++ cstr p) = _
    rw [ih]
    simp [List.append_assoc]

theorem copy_loop_feof (s : Stream) (p tmp : List Byte)
    (h : (copy_loop s p tmp).2.2 = true) :
    ∃ ls : List (List Byte), s = ls.map ReadEvent.line := by
  induction s generalizing p tmp with
  | nil => exact ⟨[], rfl⟩
  | cons e s ih =>
    cases e with
    | error => simp [copy_loop] at h
    | line l =>
      simp only [copy_loop] at h
      obtain ⟨ls, hls⟩ := ih _ _ h
      exact ⟨l :: ls, by simp [hls]⟩

/-- The rewrite of a stream without read error that has at least three
lines. -/
theorem rewrite_lines (flt : Faults) (guard : CStr) (l1 l2 ll : List Byte)
    (mid : List (List Byte)) :
    rewrite flt guard ((l1 :: l2 :: (mid ++ [ll])).map ReadEvent.line) =
      if !first_line_ok l1 then .error .badFirstLine
      else if !second_line_ok l2 then .error .badSecondLine
      else if !last_line_ok ll then .error .badLastLine
      else if flt.flush then .error .flushFailed
      else .ok (rewritten guard mid) := by
  cases mid with
  | nil =>
    simp only [rewrite, getline, List.map_cons, List.nil_append, List.map_nil, copy_loop,
      rewritten, List.flatten_nil, List.append_nil]
    simp
  | cons m mid =>
    simp only [rewrite, getline, List.map_cons, List.cons_append, copy_loop_lines, rewritten,
      List.flatten_cons]
    simp [List.append_assoc]

/-- The rewrite of a stream with fewer than three events never succeeds. -/
theorem rewrite_short (flt : Faults) (guard : CStr) (s : Stream) (h : s.length < 3) :
    ∀ buf, rewrite flt guard s ≠ .ok buf := by
  intro buf
  match s, h with
  | [], _ => simp [rewrite, getline]
  | [e1], _ =>
    cases e1 with
    | error => simp [rewrite, getline]
    | line l1 =>
      simp only [rewrite, getline]
      split <;> simp
  | [e1, e2], _ =>
    cases e1 with
    | error => simp [rewrite, getline]
    | line l1 =>
      cases e2 with
      | error =>
        simp only [rewrite, getline]
        split <;> simp
      | line l2 =>
        simp only [rewrite, getline]
        split
        · simp
        · split <;> simp

theorem rewrite_ok_shape (flt : Faults) (guard : CStr) (s : Stream) (buf : List Byte)
    (h : rewrite flt guard s = .ok buf) :
    ∃ l1 l2 mid ll, s = (l1 :: l2 :: (mid ++ [ll])).map ReadEvent.line ∧
      first_line_ok l1 = true ∧ second_line_ok l2 = true ∧ last_line_ok ll = true ∧
      flt.flush = false ∧ buf = rewritten guard mid := by
  match s with
  | [] => exact absurd h (rewrite_short flt guard _ (by simp) buf)
  | [e1] => exact absurd h (rewrite_short flt guard _ (by simp) buf)
  | [e1, e2] => exact absurd h (rewrite_short flt guard _ (by simp) buf)
  | e1 :: e2 :: e3 :: s3 =>
    cases e1 with
    | error => simp [rewrite, getline] at h
    | line l1 =>
      cases e2 with
      | error =>
        simp only [rewrite, getline] at h
        split at h <;> simp at h
      | line l2 =>
        cases e3 with
        | error =>
          simp only [rewrite, getline] at h
          split at h
          · simp at h
          · split at h <;> simp at h
        | line l3 =>
          have hfe : (copy_loop s3 l3 (bytes "#ifndef " ++ guard ++ bytes "\n" ++
              (bytes "#define " ++ guard ++ bytes "\n"))).2.2 = true := by
            simp only [rewrite, getline] at h
            split at h
            · simp at h
            · split at h
              · simp at h
              · by_contra hc
                simp only [List.append_assoc, Bool.not_eq_true] at hc
                simp [hc] at h
          obtain ⟨ls, hls⟩ := copy_loop_feof _ _ _ hfe
          have hne : l3 :: ls ≠ [] := by simp
          obtain ⟨mid, ll, hml⟩ : ∃ mid ll, l3 :: ls = mid ++ [ll] :=
            ⟨(l3 :: ls).dropLast, (l3 :: ls).getLast hne,
              (List.dropLast_append_getLast hne).symm⟩
          have hs : ReadEvent.line l1 :: ReadEvent.line l2 :: ReadEvent.line l3 :: s3 =
              (l1 :: l2 :: (mid ++ [ll])).map ReadEvent.line := by
            rw [← hml, hls]
            simp
          rw [hs, rewrite_lines] at h
          refine ⟨l1, l2, mid, ll, hs, ?_⟩
          by_cases h1 : first_line_ok l1 = true
          · by_cases h2 : second_line_ok l2 = true
            · by_cases h3 : last_line_ok ll = true
              · by_cases h4 : flt.flush = true
                · simp [h1, h2, h3, h4] at h
                · simp only [Bool.not_eq_true] at h4
                  simp [h1, h2, h3, h4] at h
                  exact ⟨h1, h2, h3, h4, h.symm⟩
              · simp [h1, h2, h3] at h
            · simp [h1, h2] at h
          · simp [h1] at h

theorem map_line_injective {a b : List (List Byte)}
    (h : a.map ReadEvent.line = b.map ReadEvent.line) : a = b := by
  have hinj : Function.Injective ReadEvent.line := by
    intro x y hxy
    cases hxy
    rfl
  exact List.map_injective_iff.2 hinj h

/-- A rewrite that succeeds on the stream of a file read all its lines, and
the three guard checks passed. -/
theorem rewrite_open_stream_ok (flt : Faults) (guard : CStr) (c : List Byte)
    (r : Option Nat) (buf : List Byte)
    (h : rewrite flt guard (open_stream c r) = .ok buf) :
    ∃ l1 l2 mid ll, split_lines c = l1 :: l2 :: (mid ++ [ll]) ∧
      first_line_ok l1 = true ∧ second_line_ok l2 = true ∧ last_line_ok ll = true ∧
      flt.flush = false ∧ buf = rewritten guard mid := by
  obtain ⟨l1, l2, mid, ll, hs, h1, h2, h3, h4, h5⟩ := rewrite_ok_shape flt guard _ buf h
  refine ⟨l1, l2, mid, ll, ?_, h1, h2, h3, h4, h5⟩
  cases r with
  | none => exact map_line_injective hs
  | some k =>
    unfold open_stream at hs
    simp only at hs
    split at hs
    · have hmem : ReadEvent.error ∈ (l1 :: l2 :: (mid ++ [ll])).map ReadEvent.line := by
        rw [← hs]
        simp
      simp at hmem
    · exact map_line_injective hs

/-! ## Lemmas on `process_file` -/

theorem rewrite_error_cases (flt : Faults) (guard : CStr) (s : Stream) (e : Status)
    (h : rewrite flt guard s = .error e) :
    e = .readFailed true ∨ e = .readFailed false ∨ e = .badFirstLine ∨
      e = .badSecondLine ∨ e = .badLastLine ∨ e = .flushFailed := by
  unfold rewrite at h
  repeat' split at h
  all_goals (try simp only [Bool.not_eq_true] at h)
  all_goals (try (repeat' split at h))
  all_goals simp_all

theorem rewrite_bad_first_iff (flt : Faults) (guard : CStr) (l1 : List Byte) (s : Stream) :
    rewrite flt guard (ReadEvent.line l1 :: s) = .error .badFirstLine ↔
      first_line_ok l1 = false := by
  constructor
  · intro h
    by_contra hc
    simp only [Bool.not_eq_false] at hc
    simp only [rewrite, getline, hc] at h
    repeat' split at h
    all_goals simp_all
  · intro h
    simp [rewrite, getline, h]

theorem commit_status (flt : Faults) (file : Path) (fs : FS) (buf : List Byte) :
    (commit flt file fs buf).status = .closeFailed ∨
      (commit flt file fs buf).status = .reopenFailed ∨
      (commit flt file fs buf).status = .writeFailed ∨
      (commit flt file fs buf).status = .ok := by
  unfold commit
  repeat' split
  all_goals simp

theorem store_other (fs : FS) (p q : Path) (c : List Byte) (h : q ≠ p) :
    (fs.store p c) q = fs q := by
  simp [FS.store, h]

theorem store_same (fs : FS) (p : Path) (c : List Byte) : (fs.store p c) p = some c := by
  simp [FS.store]

theorem commit_frame (flt : Faults) (file q : Path) (fs : FS) (buf : List Byte)
    (h : q ≠ file) : (commit flt file fs buf).fs q = fs q := by
  unfold commit
  repeat' split
  all_goals simp [store_other, h]

/-- A call of `process_file` leaves every other file as it was. -/
theorem process_file_frame (flt : Faults) (base : CStr) (file q : Path) (fs : FS)
    (h : q ≠ file) : (process_file flt base file fs).fs q = fs q := by
  unfold process_file
  repeat' split
  all_goals first | rfl | exact commit_frame _ _ _ _ _ h

/-- What a call of `process_file` does to the file depends on the content of
that file only. -/
theorem process_file_local (flt : Faults) (base : CStr) (file : Path) (fs1 fs2 : FS)
    (h : fs1 file = fs2 file) :
    (process_file flt base file fs1).fs file = (process_file flt base file fs2).fs file ∧
    (process_file flt base file fs1).status = (process_file flt base file fs2).status := by
  cases hg : header_guard base file with
  | none => simp [process_file, hg, h]
  | some guard =>
    cases hc : fs2 file with
    | none =>
      have hc1 : fs1 file = none := by rw [h, hc]
      simp [process_file, hg, hc, hc1]
    | some content =>
      have hc1 : fs1 file = some content := by rw [h, hc]
      by_cases hm : flt.memstream = true
      · simp [process_file, hg, hc, hc1, hm]
      · cases hr : rewrite flt guard (open_stream content flt.readAt) with
        | error e => simp [process_file, hg, hc, hc1, hm, hr]
        | ok buf =>
          simp only [process_file, hg, hc, hc1, hm, hr, commit]
          repeat' split
          all_goals simp [store_same, hc, hc1]

/-- The successful run: with no library failure, a file of at least three
lines that passes the three checks is replaced by the rewritten content. -/
theorem process_file_ok (base : CStr) (file : Path) (fs : FS) (content T : List Byte)
    (l1 l2 ll : List Byte) (mid : List (List Byte))
    (hT : header_guard base file = some T) (hfs : fs file = some content)
    (hl : split_lines content = l1 :: l2 :: (mid ++ [ll]))
    (h1 : first_line_ok l1 = true) (h2 : second_line_ok l2 = true)
    (h3 : last_line_ok ll = true) :
    process_file Faults.clean base file fs =
      ⟨.ok, fs.store file (rewritten T mid), [.openRead, .openWrite, .write]⟩ := by
  unfold process_file
  simp only [hT, hfs]
  have hs : open_stream content Faults.clean.readAt =
      (l1 :: l2 :: (mid ++ [ll])).map ReadEvent.line := by
    simp [open_stream, Faults.clean, hl]
  rw [hs, rewrite_lines]
  simp [h1, h2, h3, Faults.clean, commit]

/-- A run that ends with `ok` read a file of at least three lines that
passes the three checks, and left the rewritten content. -/
theorem process_file_ok_inv (flt : Faults) (base : CStr) (file : Path) (fs : FS)
    (h : Op.openWrite ∈ (process_file flt base file fs).ops) :
    ∃ T content l1 l2 mid ll, header_guard base file = some T ∧ fs file = some content ∧
      split_lines content = l1 :: l2 :: (mid ++ [ll]) ∧
      first_line_ok l1 = true ∧ second_line_ok l2 = true ∧ last_line_ok ll = true ∧
      process_file flt base file fs = commit flt file fs (rewritten T mid) := by
  unfold process_file at h ⊢
  cases hg : header_guard base file with
  | none => simp [hg] at h
  | some guard =>
    simp only [hg] at h ⊢
    cases hc : fs file with
    | none => simp [hc] at h
    | some content =>
      simp only [hc] at h ⊢
      by_cases hm : flt.memstream = true
      · simp [hm] at h
      · simp only [hm] at h ⊢
        cases hr : rewrite flt guard (open_stream content flt.readAt) with
        | error e => simp [hr] at h
        | ok buf =>
          obtain ⟨l1, l2, mid, ll, hl, h1, h2, h3, _, hb⟩ :=
            rewrite_open_stream_ok flt guard content flt.readAt buf hr
          exact ⟨guard, content, l1, l2, mid, ll, rfl, rfl, hl, h1, h2, h3, by simp [hb]⟩

/-! ## C2: a path that is not under the base -/

/-- C2: `process_file` ends with the "File path does not begin with base"
error exactly when the path does not start with `base` followed by `/`; the
file is then neither opened nor written, and the file system is unchanged. -/
theorem process_file_not_under_base (flt : Faults) (base : CStr) (file : Path) (fs : FS) :
    ((process_file flt base file fs).status = .notUnderBase ↔
      ¬ (base ++ bytes "/") <+: file) ∧
    (¬ (base ++ bytes "/") <+: file →
      (process_file flt base file fs).fs = fs ∧ (process_file flt base file fs).ops = []) := by
  rw [← header_guard_eq_none_iff]
  cases hg : header_guard base file with
  | none => simp [process_file, hg]
  | some guard =>
    refine ⟨⟨?_, fun h => by cases h⟩, fun h => by cases h⟩
    intro hst
    exfalso
    unfold process_file at hst
    simp only [hg] at hst
    cases hc : fs file with
    | none => simp [hc] at hst
    | some content =>
      simp only [hc] at hst
      by_cases hm : flt.memstream = true
      · simp [hm] at hst
      · simp only [hm] at hst
        cases hr : rewrite flt guard (open_stream content flt.readAt) with
        | error e =>
          simp only [hr] at hst
          have he := rewrite_error_cases flt guard _ e hr
          simp at hst
          subst hst
          simp at he
        | ok buf =>
          simp only [hr] at hst
          have hcs := commit_status flt file fs buf
          simp at hst
          rw [hst] at hcs
          simp at hcs

/-- Witness for C2: base `/a/b` rejects `/x/y.h` and `/a/bc/d.h`, whatever
the files contain, without opening them. -/
theorem process_file_not_under_base_witness :
    ((process_file Faults.clean (bytes "/a/b") (bytes "/x/y.h")
        (FS.single (bytes "/x/y.h") (bytes "#ifndef X\n#define X\n#endif \n"))).status
        = .notUnderBase ∧
      (process_file Faults.clean (bytes "/a/b") (bytes "/x/y.h")
        (FS.single (bytes "/x/y.h") (bytes "#ifndef X\n#define X\n#endif \n"))).ops = []) ∧
    ((process_file Faults.clean (bytes "/a/b") (bytes "/a/bc/d.h")
        (FS.single (bytes "/a/bc/d.h") (bytes "#ifndef X\n#define X\n#endif \n"))).status
        = .notUnderBase ∧
      (process_file Faults.clean (bytes "/a/b") (bytes "/a/bc/d.h")
        (FS.single (bytes "/a/bc/d.h") (bytes "#ifndef X\n#define X\n#endif \n"))).ops = []) :=
  ⟨⟨(process_file_not_under_base _ _ _ _).1.2 (by decide),
      ((process_file_not_under_base _ _ _ _).2 (by decide)).2⟩,
    ⟨(process_file_not_under_base _ _ _ _).1.2 (by decide),
      ((process_file_not_under_base _ _ _ _).2 (by decide)).2⟩⟩

/-! ## C3 and C4: the rewritten file -/

theorem flatten_split_lines (c : List Byte) : (split_lines c).flatten = c := by
  induction c with
  | nil => rfl
  | cons b rest ih =>
    unfold split_lines
    by_cases hb : b = 10
    · simp [hb, ih]
    · simp only [hb, if_false]
      cases hs : split_lines rest with
      | nil =>
        rw [hs] at ih
        simp at ih
        simp [← ih]
      | cons l ls =>
        rw [hs] at ih
        simp only [List.flatten_cons] at ih ⊢
        rw [List.cons_append, ih]

theorem mem_of_mem_split_lines (c l : List Byte) (b : Byte) (hl : l ∈ split_lines c)
    (hb : b ∈ l) : b ∈ c := by
  rw [← flatten_split_lines c]
  exact List.mem_flatten.2 ⟨l, hl, hb⟩

theorem map_cstr_eq_self (ls : List (List Byte)) (h : ∀ l ∈ ls, 0 ∉ l) :
    ls.map cstr = ls := by
  induction ls with
  | nil => rfl
  | cons l ls ih =>
    simp only [List.map_cons]
    rw [cstr_eq_self l (h l (by simp)), ih (fun l hl => h l (by simp [hl]))]

/-- C3: a file without NUL bytes that has the lines `l1`, `l2`, `mid`, `ll`,
lies under the base with token `T` and passes the three checks is replaced by
`#ifndef T`, `#define T`, the lines of `mid` unchanged, and `#endif // T`, each
of the three new lines ended by a newline. -/
theorem process_file_rewritten_shape (base : CStr) (file : Path) (fs : FS)
    (content T l1 l2 ll : List Byte) (mid : List (List Byte))
    (hT : header_guard base file = some T) (hfs : fs file = some content)
    (hnul : 0 ∉ content) (hl : split_lines content = l1 :: l2 :: (mid ++ [ll]))
    (h1 : first_line_ok l1 = true) (h2 : second_line_ok l2 = true)
    (h3 : last_line_ok ll = true) :
    (process_file Faults.clean base file fs).status = .ok ∧
    (process_file Faults.clean base file fs).fs file =
      some (bytes "#ifndef " ++ T ++ bytes "\n" ++ (bytes "#define " ++ T ++ bytes "\n") ++
        mid.flatten ++ (bytes "#endif // " ++ T ++ bytes "\n")) := by
  rw [process_file_ok base file fs content T l1 l2 ll mid hT hfs hl h1 h2 h3]
  refine ⟨rfl, ?_⟩
  have hmid : mid.map cstr = mid := by
    apply map_cstr_eq_self
    intro l hlm h0
    exact hnul (mem_of_mem_split_lines content l 0 (by rw [hl]; simp [hlm]) h0)
  simp [store_same, rewritten, hmid]

/-- Witness for C3: `/a/b/c/d.h` under `/a/b`, with a trailing comment after
`#endif` and no final newline. -/
theorem process_file_rewritten_shape_witness :
    (process_file Faults.clean (bytes "/a/b") (bytes "/a/b/c/d.h")
      (FS.single (bytes "/a/b/c/d.h")
        (bytes "#ifndef OLD\n#define OLD\nint x;\n\nint y;\n#endif /* FOO */"))).fs
      (bytes "/a/b/c/d.h") =
    some (bytes "#ifndef C_D_H\n#define C_D_H\nint x;\n\nint y;\n#endif // C_D_H\n") :=
  (process_file_rewritten_shape (bytes "/a/b") (bytes "/a/b/c/d.h")
    (FS.single (bytes "/a/b/c/d.h")
      (bytes "#ifndef OLD\n#define OLD\nint x;\n\nint y;\n#endif /* FOO */"))
    (bytes "#ifndef OLD\n#define OLD\nint x;\n\nint y;\n#endif /* FOO */")
    (bytes "C_D_H") (bytes "#ifndef OLD\n") (bytes "#define OLD\n") (bytes "#endif /* FOO */")
    [bytes "int x;\n", bytes "\n", bytes "int y;\n"]
    (by decide) (by decide) (by decide) (by decide) (by decide) (by decide) (by decide)).2

/-- C4, as the code has it: in a file of at least three lines that
`process_file` rewrites, every line between the second and the last is written,
in order, as the bytes before its first NUL byte; a line without NUL byte is
written whole, with the line terminator it has. -/
theorem process_file_body (flt : Faults) (base : CStr) (file : Path) (fs : FS)
    (content T l1 l2 ll : List Byte) (mid : List (List Byte))
    (hT : header_guard base file = some T) (hfs : fs file = some content)
    (hl : split_lines content = l1 :: l2 :: (mid ++ [ll]))
    (hok : (process_file flt base file fs).status = .ok) :
    (process_file flt base file fs).fs file =
      some (bytes "#ifndef " ++ T ++ bytes "\n" ++ (bytes "#define " ++ T ++ bytes "\n") ++
        (mid.map cstr).flatten ++ (bytes "#endif // " ++ T ++ bytes "\n")) ∧
    (∀ l ∈ mid, 0 ∉ l → cstr l = l) := by
  refine ⟨?_, fun l _ h0 => cstr_eq_self l h0⟩
  have hops : Op.openWrite ∈ (process_file flt base file fs).ops := by
    unfold process_file at hok ⊢
    simp only [hT, hfs] at hok ⊢
    by_cases hm : flt.memstream = true
    · simp [hm] at hok
    · simp only [hm] at hok ⊢
      cases hr : rewrite flt T (open_stream content flt.readAt) with
      | error e =>
        simp only [hr] at hok
        have he := rewrite_error_cases flt T _ e hr
        simp at hok
        subst hok
        simp at he
      | ok buf =>
        simp only [hr, commit] at hok ⊢
        repeat' split
        all_goals simp_all
  obtain ⟨T2, content2, a1, a2, mid2, al, hT2, hfs2, hl2, _, _, _, hpf⟩ :=
    process_file_ok_inv flt base file fs hops
  rw [hT] at hT2
  rw [hfs] at hfs2
  cases hT2
  cases hfs2
  rw [hl] at hl2
  have hmid : mid = mid2 := by
    simp only [List.cons.injEq, true_and] at hl2
    have := List.append_inj_left' hl2.2.2 (by simp)
    exact this
  subst hmid
  rw [hpf] at hok ⊢
  unfold commit at hok ⊢
  repeat' split at hok
  all_goals simp_all [store_same, rewritten]

/-- Witness for C4: lines ended by CR LF are kept whole. -/
theorem process_file_body_witness :
    (process_file Faults.clean (bytes "/a") (bytes "/a/x.h")
      (FS.single (bytes "/a/x.h")
        (bytes "#ifndef X\r\n#define X\r\nint x;\r\n#endif // X\r\n"))).fs (bytes "/a/x.h") =
      some (bytes "#ifndef " ++ bytes "X_H" ++ bytes "\n" ++
        (bytes "#define " ++ bytes "X_H" ++ bytes "\n") ++
        ([bytes "int x;\r\n"].map cstr).flatten ++
        (bytes "#endif // " ++ bytes "X_H" ++ bytes "\n")) ∧
    cstr (bytes "int x;\r\n") = bytes "int x;\r\n" :=
  have h := process_file_body Faults.clean (bytes "/a") (bytes "/a/x.h")
    (FS.single (bytes "/a/x.h") (bytes "#ifndef X\r\n#define X\r\nint x;\r\n#endif // X\r\n"))
    (bytes "#ifndef X\r\n#define X\r\nint x;\r\n#endif // X\r\n") (bytes "X_H")
    (bytes "#ifndef X\r\n") (bytes "#define X\r\n") (bytes "#endif // X\r\n")
    [bytes "int x;\r\n"] (by decide) (by decide) (by decide) (by decide)
  ⟨h.1, h.2 (bytes "int x;\r\n") (by decide) (by decide)⟩

/-- Counterexample to C4 as stated: the third line `a\0b\n` of a file that is
rewritten successfully is cut at its NUL byte, so it does not appear in the
output, which holds `a` directly followed by the `#endif` line. -/
theorem process_file_body_nul_counterexample :
    split_lines (bytes "#ifndef X\n#define X\na\x00b\n#endif \n") =
      [bytes "#ifndef X\n", bytes "#define X\n", bytes "a\x00b\n", bytes "#endif \n"] ∧
    (process_file Faults.clean (bytes "/a") (bytes "/a/x.h")
      (FS.single (bytes "/a/x.h")
        (bytes "#ifndef X\n#define X\na\x00b\n#endif \n"))).status = .ok ∧
    (process_file Faults.clean (bytes "/a") (bytes "/a/x.h")
      (FS.single (bytes "/a/x.h")
        (bytes "#ifndef X\n#define X\na\x00b\n#endif \n"))).fs (bytes "/a/x.h") =
      some (bytes "#ifndef X_H\n#define X_H\na#endif // X_H\n") ∧
    ¬ (bytes "a\x00b\n" <:+: bytes "#ifndef X_H\n#define X_H\na#endif // X_H\n") := by
  decide

/-! ## C6: the accepted format -/

theorem take_of_starts_with (w l : List Byte) (n : Nat) (hn : n ≤ w.length) (h : w <+: l) :
    l.take n = w.take n := by
  obtain ⟨r, hr⟩ := h
  rw [← hr, List.take_append_of_le_length hn]

/-- C6, as the code has it: a file under the base with at least three lines
whose first line starts with `#ifndef `, whose second line starts with
`#define ` and whose last line starts with `#endif ` (the six characters and one
space, then anything) passes the three checks and is rewritten. -/
theorem process_file_accepts (base : CStr) (file : Path) (fs : FS)
    (content T l1 l2 ll : List Byte) (mid : List (List Byte))
    (hT : header_guard base file = some T) (hfs : fs file = some content)
    (hl : split_lines content = l1 :: l2 :: (mid ++ [ll]))
    (h1 : bytes "#ifndef " <+: l1) (h2 : bytes "#define " <+: l2)
    (h3 : bytes "#endif " <+: ll) :
    last_line_ok ll = true ∧
    (process_file Faults.clean base file fs).status = .ok ∧
    (process_file Faults.clean base file fs).fs file = some (rewritten T mid) := by
  have k1 : first_line_ok l1 = true :=
    (first_line_ok_iff l1).2 (take_of_starts_with _ _ 7 (by decide) h1)
  have k2 : second_line_ok l2 = true :=
    (second_line_ok_iff l2).2 (take_of_starts_with _ _ 7 (by decide) h2)
  have k3 : last_line_ok ll = true :=
    (last_line_ok_iff ll).2 (take_of_starts_with _ _ 7 (by decide) h3)
  rw [process_file_ok base file fs content T l1 l2 ll mid hT hfs hl k1 k2 k3]
  exact ⟨k3, rfl, store_same _ _ _⟩

/-- Witness for C6: a last line `#endif // X` without final newline. -/
theorem process_file_accepts_witness :
    (process_file Faults.clean (bytes "/a") (bytes "/a/x.h")
      (FS.single (bytes "/a/x.h") (bytes "#ifndef X\n#define X\nint x;\n#endif // X"))).fs
      (bytes "/a/x.h") = some (bytes "#ifndef X_H\n#define X_H\nint x;\n#endif // X_H\n") :=
  (process_file_accepts (bytes "/a") (bytes "/a/x.h")
    (FS.single (bytes "/a/x.h") (bytes "#ifndef X\n#define X\nint x;\n#endif // X"))
    (bytes "#ifndef X\n#define X\nint x;\n#endif // X") (bytes "X_H")
    (bytes "#ifndef X\n") (bytes "#define X\n") (bytes "#endif // X") [bytes "int x;\n"]
    (by decide) (by decide) (by decide) (by decide) (by decide) (by decide)).2.2

/-- Counterexample to C6 as stated: a file in the documented format whose last
line is a bare `#endif`, or `#endif` followed by a tab, fails the last-line
check and is left as it was. -/
theorem process_file_bare_endif_rejected :
    (split_lines (bytes "#ifndef X\n#define X\nint x;\n#endif\n") =
        [bytes "#ifndef X\n", bytes "#define X\n", bytes "int x;\n", bytes "#endif\n"] ∧
      last_line_ok (bytes "#endif\n") = false ∧
      (process_file Faults.clean (bytes "/a") (bytes "/a/x.h")
        (FS.single (bytes "/a/x.h") (bytes "#ifndef X\n#define X\nint x;\n#endif\n"))).status
        = .badLastLine ∧
      (process_file Faults.clean (bytes "/a") (bytes "/a/x.h")
        (FS.single (bytes "/a/x.h") (bytes "#ifndef X\n#define X\nint x;\n#endif\n"))).fs
        (bytes "/a/x.h") = some (bytes "#ifndef X\n#define X\nint x;\n#endif\n")) ∧
    (last_line_ok (bytes "#endif\t// X\n") = false ∧
      (process_file Faults.clean (bytes "/a") (bytes "/a/x.h")
        (FS.single (bytes "/a/x.h")
          (bytes "#ifndef X\n#define X\nint x;\n#endif\t// X\n"))).status = .badLastLine) := by
  decide

/-! ## C7: the first line -/

theorem open_stream_cons (content l1 : List Byte) (rest : List (List Byte)) (r : Option Nat)
    (hl : split_lines content = l1 :: rest) (hr : r ≠ some 0) :
    ∃ s, open_stream content r = ReadEvent.line l1 :: s := by
  cases r with
  | none => exact ⟨rest.map ReadEvent.line, by simp [open_stream, hl]⟩
  | some k =>
    cases k with
    | zero => exact absurd rfl hr
    | succ k =>
      unfold open_stream
      simp only [hl, List.map_cons, List.length_cons, List.take_succ_cons, List.cons_append]
      split
      · exact ⟨_, rfl⟩
      · exact ⟨_, rfl⟩

/-- C7: for a file under the base that has a first line, when the memory
stream opens and the first `getline` call meets no read error, `process_file`
stops with "First line does not begin with #ifndef" exactly when the first 7
bytes of the first line are not `#ifndef`; the file system is then unchanged
and the file was opened for reading only. -/
theorem process_file_first_line (flt : Faults) (base : CStr) (file : Path) (fs : FS)
    (content T l1 : List Byte) (rest : List (List Byte))
    (hT : header_guard base file = some T) (hfs : fs file = some content)
    (hl : split_lines content = l1 :: rest)
    (hm : flt.memstream = false) (hr : flt.readAt ≠ some 0) :
    ((process_file flt base file fs).status = .badFirstLine ↔
      l1.take 7 ≠ bytes "#ifndef") ∧
    ((process_file flt base file fs).status = .badFirstLine →
      (process_file flt base file fs).fs = fs ∧
      (process_file flt base file fs).ops = [.openRead]) := by
  obtain ⟨s, hs⟩ := open_stream_cons content l1 rest flt.readAt hl hr
  have hiff := rewrite_bad_first_iff flt T l1 s
  have hx : l1.take 7 ≠ bytes "#ifndef" ↔ first_line_ok l1 = false := by
    rw [Ne, ← first_line_ok_iff]
    simp
  rw [hx]
  unfold process_file
  simp only [hT, hfs, hm, hs]
  cases hrw : rewrite flt T (ReadEvent.line l1 :: s) with
  | error e =>
    simp only [Bool.false_eq_true, if_false]
    constructor
    · constructor
      · intro he
        have he2 : e = Status.badFirstLine := he
        subst he2
        exact hiff.1 hrw
      · intro hf
        have := hiff.2 hf
        rw [hrw] at this
        cases this
        rfl
    · intro _
      simp
  | ok buf =>
    simp only [Bool.false_eq_true, if_false]
    have hcs := commit_status flt file fs buf
    have hnot : (commit flt file fs buf).status ≠ .badFirstLine := by
      intro hc
      rw [hc] at hcs
      simp at hcs
    constructor
    · constructor
      · intro hc
        exact absurd hc hnot
      · intro hf
        have := hiff.2 hf
        rw [hrw] at this
        cases this
    · intro hc
      exact absurd hc hnot

/-- Witness for C7: a first line `#define FOO` is rejected with the file
untouched, and a first line `#ifndeffoo` passes the check. -/
theorem process_file_first_line_witness :
    ((process_file Faults.clean (bytes "/a") (bytes "/a/x.h")
        (FS.single (bytes "/a/x.h") (bytes "#define FOO\n#define X\n#endif \n"))).status
        = .badFirstLine ∧
      (process_file Faults.clean (bytes "/a") (bytes "/a/x.h")
        (FS.single (bytes "/a/x.h") (bytes "#define FOO\n#define X\n#endif \n"))).fs
        = FS.single (bytes "/a/x.h") (bytes "#define FOO\n#define X\n#endif \n")) ∧
    (process_file Faults.clean (bytes "/a") (bytes "/a/x.h")
        (FS.single (bytes "/a/x.h") (bytes "#ifndeffoo\n#define X\n#endif \n"))).status
        ≠ .badFirstLine :=
  have h1 := process_file_first_line Faults.clean (bytes "/a") (bytes "/a/x.h")
    (FS.single (bytes "/a/x.h") (bytes "#define FOO\n#define X\n#endif \n"))
    (bytes "#define FOO\n#define X\n#endif \n") (bytes "X_H") (bytes "#define FOO\n")
    [bytes "#define X\n", bytes "#endif \n"] (by decide) (by decide) (by decide)
    (by decide) (by decide)
  have h2 := process_file_first_line Faults.clean (bytes "/a") (bytes "/a/x.h")
    (FS.single (bytes "/a/x.h") (bytes "#ifndeffoo\n#define X\n#endif \n"))
    (bytes "#ifndeffoo\n#define X\n#endif \n") (bytes "X_H") (bytes "#ifndeffoo\n")
    [bytes "#define X\n", bytes "#endif \n"] (by decide) (by decide) (by decide)
    (by decide) (by decide)
  ⟨⟨h1.1.2 (by decide), (h1.2 (h1.1.2 (by decide))).1⟩,
    fun hbad => h2.1.1 hbad (by decide)⟩

/-! ## C8 and C9: nothing is written before the commit -/

/-- A run that did not reach the commit made no change and opened the file
at most once, for reading. -/
theorem process_file_no_commit (flt : Faults) (base : CStr) (file : Path) (fs : FS)
    (h : Op.openWrite ∉ (process_file flt base file fs).ops) :
    (process_file flt base file fs).status ≠ .ok ∧
    (process_file flt base file fs).fs = fs ∧
    Op.write ∉ (process_file flt base file fs).ops := by
  unfold process_file at h ⊢
  cases hg : header_guard base file with
  | none => simp
  | some guard =>
    simp only [hg] at h ⊢
    cases hc : fs file with
    | none => simp
    | some content =>
      simp only [hc] at h ⊢
      by_cases hm : flt.memstream = true
      · simp [hm]
      · simp only [hm] at h ⊢
        cases hr : rewrite flt guard (open_stream content flt.readAt) with
        | error e =>
          have he := rewrite_error_cases flt guard _ e hr
          simp only [Bool.false_eq_true, if_false]
          refine ⟨?_, by simp⟩
          intro hok
          have hok2 : e = Status.ok := hok
          subst hok2
          simp at he
        | ok buf =>
          simp only [hr, commit] at h ⊢
          by_cases hcl : flt.close = true
          · simp [hcl]
          · by_cases hro : flt.reopen = true
            · simp [hcl, hro] at h
            · cases hw : flt.write <;> simp [hcl, hro, hw] at h

/-- C8: a file with fewer than three lines is never rewritten: whatever the
base, the path, the lines and the library failures, `process_file` ends with
an error, leaves the file system as it was and opens the file at most for
reading. -/
theorem process_file_too_short (flt : Faults) (base : CStr) (file : Path) (fs : FS)
    (content : List Byte) (hfs : fs file = some content)
    (hn : (split_lines content).length < 3) :
    (process_file flt base file fs).status ≠ .ok ∧
    (process_file flt base file fs).fs = fs ∧
    Op.openWrite ∉ (process_file flt base file fs).ops ∧
    Op.write ∉ (process_file flt base file fs).ops := by
  have hno : Op.openWrite ∉ (process_file flt base file fs).ops := by
    intro h
    obtain ⟨T, content2, l1, l2, mid, ll, _, hfs2, hl, _⟩ :=
      process_file_ok_inv flt base file fs h
    rw [hfs] at hfs2
    cases hfs2
    rw [hl] at hn
    simp at hn
    omega
  obtain ⟨h1, h2, h3⟩ := process_file_no_commit flt base file fs hno
  exact ⟨h1, h2, hno, h3⟩

/-- Witness for C8: a file of two well-formed lines under the base. -/
theorem process_file_too_short_witness :
    (process_file Faults.clean (bytes "/a") (bytes "/a/x.h")
      (FS.single (bytes "/a/x.h") (bytes "#ifndef X\n#define X\n"))).status ≠ .ok ∧
    (process_file Faults.clean (bytes "/a") (bytes "/a/x.h")
      (FS.single (bytes "/a/x.h") (bytes "#ifndef X\n#define X\n"))).fs =
      FS.single (bytes "/a/x.h") (bytes "#ifndef X\n#define X\n") :=
  have h := process_file_too_short Faults.clean (bytes "/a") (bytes "/a/x.h")
    (FS.single (bytes "/a/x.h") (bytes "#ifndef X\n#define X\n"))
    (bytes "#ifndef X\n#define X\n") (by decide) (by decide)
  ⟨h.1, h.2.1⟩

/-- C9: a call of `process_file` that ends in an error found before the file
is reopened for writing (path not under the base, open failure, memory stream
failure, read error or too few lines, malformed first, second or last line,
flush failure, close failure) leaves the file system exactly as it was and
never opened the file for writing; and whenever the file is opened for
writing, it had at least three lines and the three guard checks had passed. -/
theorem process_file_no_write_before_commit (flt : Faults) (base : CStr) (file : Path)
    (fs : FS) :
    ((process_file flt base file fs).status ≠ .ok ∧
      (process_file flt base file fs).status ≠ .reopenFailed ∧
      (process_file flt base file fs).status ≠ .writeFailed →
        (process_file flt base file fs).fs = fs ∧
        Op.openWrite ∉ (process_file flt base file fs).ops ∧
        Op.write ∉ (process_file flt base file fs).ops) ∧
    (Op.openWrite ∈ (process_file flt base file fs).ops →
      ∃ T content l1 l2 mid ll, header_guard base file = some T ∧
        fs file = some content ∧ split_lines content = l1 :: l2 :: (mid ++ [ll]) ∧
        first_line_ok l1 = true ∧ second_line_ok l2 = true ∧ last_line_ok ll = true) := by
  constructor
  · rintro ⟨h1, h2, h3⟩
    have hno : Op.openWrite ∉ (process_file flt base file fs).ops := by
      intro h
      obtain ⟨T, content, l1, l2, mid, ll, _, _, _, _, _, _, hpf⟩ :=
        process_file_ok_inv flt base file fs h
      rw [hpf] at h h1 h2 h3
      unfold commit at h h1 h2 h3
      by_cases hcl : flt.close = true
      · simp [hcl] at h
      · by_cases hro : flt.reopen = true
        · simp [hcl, hro] at h2
        · cases hw : flt.write <;> simp [hcl, hro, hw] at h1 h3
    obtain ⟨_, k2, k3⟩ := process_file_no_commit flt base file fs hno
    exact ⟨k2, hno, k3⟩
  · intro h
    obtain ⟨T, content, l1, l2, mid, ll, hT, hfs, hl, k1, k2, k3, _⟩ :=
      process_file_ok_inv flt base file fs h
    exact ⟨T, content, l1, l2, mid, ll, hT, hfs, hl, k1, k2, k3⟩

/-- Witness for C9: a flush failure on a well-formed file leaves it as it
was, and a clean run on it opens it for writing after the three checks. -/
theorem process_file_no_write_before_commit_witness :
    ((process_file { Faults.clean with flush := true } (bytes "/a") (bytes "/a/x.h")
        (FS.single (bytes "/a/x.h") (bytes "#ifndef X\n#define X\n#endif \n"))).fs =
        FS.single (bytes "/a/x.h") (bytes "#ifndef X\n#define X\n#endif \n") ∧
      Op.openWrite ∉ (process_file { Faults.clean with flush := true } (bytes "/a")
        (bytes "/a/x.h")
        (FS.single (bytes "/a/x.h") (bytes "#ifndef X\n#define X\n#endif \n"))).ops ∧
      Op.write ∉ (process_file { Faults.clean with flush := true } (bytes "/a")
        (bytes "/a/x.h")
        (FS.single (bytes "/a/x.h") (bytes "#ifndef X\n#define X\n#endif \n"))).ops) ∧
    (∃ T content l1 l2 mid ll, header_guard (bytes "/a") (bytes "/a/x.h") = some T ∧
        FS.single (bytes "/a/x.h") (bytes "#ifndef X\n#define X\n#endif \n") (bytes "/a/x.h")
          = some content ∧
        split_lines content = l1 :: l2 :: (mid ++ [ll]) ∧
        first_line_ok l1 = true ∧ second_line_ok l2 = true ∧ last_line_ok ll = true) :=
  ⟨(process_file_no_write_before_commit { Faults.clean with flush := true } (bytes "/a")
      (bytes "/a/x.h")
      (FS.single (bytes "/a/x.h") (bytes "#ifndef X\n#define X\n#endif \n"))).1
      (by decide),
    (process_file_no_write_before_commit Faults.clean (bytes "/a") (bytes "/a/x.h")
      (FS.single (bytes "/a/x.h") (bytes "#ifndef X\n#define X\n#endif \n"))).2
      (by decide)⟩

/-! ## C10: the loop of `main` -/

theorem main_loop_frame (flt : Nat → Faults) (base : CStr) (i : Nat) (files : List Path)
    (fs : FS) (q : Path) (h : q ∉ files) : main_loop flt base i files fs q = fs q := by
  induction files generalizing i fs with
  | nil => rfl
  | cons f rest ih =>
    have hqf : q ≠ f := fun e => h (by simp [e])
    have hqr : q ∉ rest := fun e => h (by simp [e])
    simp only [main_loop]
    rw [ih _ _ hqr, process_file_frame _ _ _ _ _ hqf]

theorem main_loop_get (flt : Nat → Faults) (base : CStr) (i : Nat) (files : List Path)
    (fs : FS) (hd : files.Nodup) (j : Nat) (file : Path) (hj : files[j]? = some file) :
    main_loop flt base i files fs file = (process_file (flt (i + j)) base file fs).fs file := by
  induction files generalizing i fs j with
  | nil => simp at hj
  | cons f rest ih =>
    have hfr : f ∉ rest := (List.nodup_cons.1 hd).1
    have hdr : rest.Nodup := (List.nodup_cons.1 hd).2
    simp only [main_loop]
    cases j with
    | zero =>
      simp only [List.getElem?_cons_zero, Option.some.injEq] at hj
      subst hj
      rw [main_loop_frame _ _ _ _ _ _ hfr]
      rfl
    | succ j =>
      simp only [List.getElem?_cons_succ] at hj
      have hmem : file ∈ rest := List.getElem?_mem hj
      have hne : file ≠ f := fun e => hfr (e ▸ hmem)
      rw [ih (i + 1) _ hdr j hj]
      have hloc := process_file_local (flt (i + 1 + j)) base file
        (process_file (flt i) base f fs).fs fs (process_file_frame _ _ _ _ _ hne)
      rw [hloc.1]
      congr 3
      omega

/-- The loop of `main` when a base is set: when `parse_args` returns with a
base and the file list has no repeated path, `main` returns 0 and leaves every
listed file with the content `process_file` alone gives it from the initial
file system, whatever happens to the other files of the list (for the library
failures of `Faults`); every path that is not listed is untouched. -/
theorem main_continues_on_error (realpath : CStr → Option Path) (flt : Nat → Faults)
    (argv : List CStr) (fs : FS) (st : ParseState) (base : CStr)
    (hp : parse_args realpath argv = .done st) (hb : st.base = some base)
    (hd : st.files.Nodup) :
    (main realpath flt argv fs).1 = .status 0 ∧
    (∀ j file, st.files[j]? = some file →
      (main realpath flt argv fs).2 file = (process_file (flt j) base file fs).fs file) ∧
    (∀ q, q ∉ st.files → (main realpath flt argv fs).2 q = fs q) := by
  have hmain : main realpath flt argv fs = (.status 0, main_loop flt base 0 st.files fs) := by
    unfold main
    simp only [hp, hb]
    cases hf : st.files with
    | nil => rfl
    | cons f rest => rfl
  rw [hmain]
  refine ⟨rfl, ?_, ?_⟩
  · intro j file hj
    have := main_loop_get flt base 0 st.files fs hd j file hj
    simpa using this
  · intro q hq
    exact main_loop_frame flt base 0 st.files fs q hq

/-- An instance with a base set: `prog -b /a /a/y.h /a/x.h`, where `y.h` has
a malformed first line and `x.h` is a valid header: the run returns 0, `x.h`
is rewritten and `y.h` is left as it was. -/
theorem main_continues_on_error_witness :
    (main some (fun _ => Faults.clean)
      [bytes "prog", bytes "-b", bytes "/a", bytes "/a/y.h", bytes "/a/x.h"]
      ((FS.single (bytes "/a/y.h") (bytes "int y;\n")).store (bytes "/a/x.h")
        (bytes "#ifndef X\n#define X\nint x;\n#endif // X\n"))).1 = .status 0 ∧
    (main some (fun _ => Faults.clean)
      [bytes "prog", bytes "-b", bytes "/a", bytes "/a/y.h", bytes "/a/x.h"]
      ((FS.single (bytes "/a/y.h") (bytes "int y;\n")).store (bytes "/a/x.h")
        (bytes "#ifndef X\n#define X\nint x;\n#endif // X\n"))).2 (bytes "/a/x.h") =
      some (bytes "#ifndef X_H\n#define X_H\nint x;\n#endif // X_H\n") ∧
    (main some (fun _ => Faults.clean)
      [bytes "prog", bytes "-b", bytes "/a", bytes "/a/y.h", bytes "/a/x.h"]
      ((FS.single (bytes "/a/y.h") (bytes "int y;\n")).store (bytes "/a/x.h")
        (bytes "#ifndef X\n#define X\nint x;\n#endif // X\n"))).2 (bytes "/a/y.h") =
      some (bytes "int y;\n") :=
  have h := main_continues_on_error some (fun _ => Faults.clean)
    [bytes "prog", bytes "-b", bytes "/a", bytes "/a/y.h", bytes "/a/x.h"]
    ((FS.single (bytes "/a/y.h") (bytes "int y;\n")).store (bytes "/a/x.h")
      (bytes "#ifndef X\n#define X\nint x;\n#endif // X\n"))
    ⟨[bytes "/a/y.h", bytes "/a/x.h", bytes "/a", bytes "/a/y.h", bytes "/a/x.h"],
      some (bytes "/a"), 2⟩
    (bytes "/a") (by decide) (by decide) (by decide)
  ⟨h.1, (h.2.1 1 (bytes "/a/x.h") (by decide)).trans (by decide),
    (h.2.1 0 (bytes "/a/y.h") (by decide)).trans (by decide)⟩

/-- C10 fails on the code: on `prog /a/y.h /a/x.h`, a malformed file and a
valid one without `-b`/`--base` flag, `parse_args` lists both files and leaves
`base` as `NULL`; the first call of `process_file` reaches `strlen(NULL)`, so
`main` does not return success and the valid file `x.h` is left as it was,
while `process_file` alone, with the empty base, rewrites it with the token
`A_X_H`. -/
theorem main_stops_without_base_flag :
    parse_args some [bytes "prog", bytes "/a/y.h", bytes "/a/x.h"] =
      .done ⟨[bytes "/a/y.h", bytes "/a/x.h", bytes "/a/x.h"], none, 2⟩ ∧
    (main some (fun _ => Faults.clean) [bytes "prog", bytes "/a/y.h", bytes "/a/x.h"]
      ((FS.single (bytes "/a/y.h") (bytes "int y;\n")).store (bytes "/a/x.h")
        (bytes "#ifndef X\n#define X\nint x;\n#endif // X\n"))).1 = .crash ∧
    (main some (fun _ => Faults.clean) [bytes "prog", bytes "/a/y.h", bytes "/a/x.h"]
      ((FS.single (bytes "/a/y.h") (bytes "int y;\n")).store (bytes "/a/x.h")
        (bytes "#ifndef X\n#define X\nint x;\n#endif // X\n"))).2 (bytes "/a/x.h") =
      some (bytes "#ifndef X\n#define X\nint x;\n#endif // X\n") ∧
    (process_file Faults.clean (bytes "") (bytes "/a/x.h")
      ((FS.single (bytes "/a/y.h") (bytes "int y;\n")).store (bytes "/a/x.h")
        (bytes "#ifndef X\n#define X\nint x;\n#endif // X\n"))).status = .ok ∧
    (process_file Faults.clean (bytes "") (bytes "/a/x.h")
      ((FS.single (bytes "/a/y.h") (bytes "int y;\n")).store (bytes "/a/x.h")
        (bytes "#ifndef X\n#define X\nint x;\n#endif // X\n"))).fs (bytes "/a/x.h") =
      some (bytes "#ifndef A_X_H\n#define A_X_H\nint x;\n#endif // A_X_H\n") := by
  decide

/-! ## C5: idempotence -/

theorem split_lines_cons_other (b : Byte) (rest : List Byte) (hb : b ≠ 10) :
    split_lines (b :: rest) =
      match split_lines rest with
      | [] => [[b]]
      | l :: ls => (b :: l) :: ls := by
  rw [split_lines]
  simp only [hb, if_false]

theorem split_lines_append_newline (l rest : List Byte) (h : 10 ∉ l) :
    split_lines (l ++ 10 :: rest) = (l ++ [10]) :: split_lines rest := by
  induction l with
  | nil => simp [split_lines]
  | cons b l ih =>
    have hb : b ≠ 10 := fun e => h (by simp [e])
    have hl : 10 ∉ l := fun e => h (by simp [e])
    rw [List.cons_append, split_lines_cons_other b _ hb, ih hl]
    rfl

theorem split_lines_cons_cons (c l l2 : List Byte) (ls : List (List Byte))
    (h : split_lines c = l :: l2 :: ls) :
    full_line l ∧ ∃ c2, c = l ++ c2 ∧ split_lines c2 = l2 :: ls := by
  induction c generalizing l with
  | nil => simp [split_lines] at h
  | cons b rest ih =>
    unfold split_lines at h
    by_cases hb : b = 10
    · simp only [hb, if_true, List.cons.injEq] at h
      obtain ⟨h1, h2⟩ := h
      subst h1
      exact ⟨⟨[], by simp, rfl⟩, rest, by simp [hb], h2⟩
    · simp only [hb, if_false] at h
      cases hs : split_lines rest with
      | nil => simp [hs] at h
      | cons l0 ls0 =>
        simp only [hs, List.cons.injEq] at h
        obtain ⟨h1, h2⟩ := h
        subst h1
        subst h2
        obtain ⟨⟨u, hu, hlu⟩, c2, hc2, hs2⟩ := ih l0 hs
        refine ⟨⟨b :: u, ?_, by simp [hlu]⟩, c2, by simp [hc2], hs2⟩
        intro hm
        rcases List.mem_cons.1 hm with e | e
        · exact hb e.symm
        · exact hu e

theorem full_line_of_split (pre : List (List Byte)) (c ll : List Byte)
    (h : split_lines c = pre ++ [ll]) : ∀ l ∈ pre, full_line l := by
  induction pre generalizing c with
  | nil => simp
  | cons p pre ih =>
    have hne : pre ++ [ll] ≠ [] := by simp
    obtain ⟨x, xs, hx⟩ := List.exists_cons_of_ne_nil hne
    have h2 : split_lines c = p :: x :: xs := by rw [h, List.cons_append, hx]
    obtain ⟨hp, c2, _, hs2⟩ := split_lines_cons_cons c p x xs h2
    intro l hl
    rcases List.mem_cons.1 hl with e | e
    · rw [e]; exact hp
    · exact ih c2 (by rw [hs2, hx]) l e

theorem split_lines_flatten_append (mid : List (List Byte)) (rest : List Byte)
    (h : ∀ l ∈ mid, full_line l) :
    split_lines (mid.flatten ++ rest) = mid ++ split_lines rest := by
  induction mid with
  | nil => simp
  | cons m mid ih =>
    obtain ⟨u, hu, hm⟩ := h m (by simp)
    have hmid : ∀ l ∈ mid, full_line l := fun l hl => h l (by simp [hl])
    rw [List.flatten_cons, hm]
    have : u ++ [10] ++ mid.flatten ++ rest = u ++ 10 :: (mid.flatten ++ rest) := by simp
    rw [this, split_lines_append_newline u _ hu, ih hmid]
    simp

/-- The first line of a content that holds a newline after `x`: it ends
with a newline and its other bytes are bytes of `x`. -/
theorem split_lines_head (x rest : List Byte) :
    ∃ u tl, 10 ∉ u ∧ (∀ b ∈ u, b ∈ x) ∧ split_lines (x ++ 10 :: rest) = (u ++ [10]) :: tl := by
  induction x with
  | nil => exact ⟨[], split_lines rest, by simp, by simp, by simp [split_lines]⟩
  | cons b x ih =>
    by_cases hb : b = 10
    · exact ⟨[], split_lines (x ++ 10 :: rest), by simp, by simp, by simp [split_lines, hb]⟩
    · obtain ⟨u, tl, hu, hux, hs⟩ := ih
      refine ⟨b :: u, tl, ?_, ?_, ?_⟩
      · intro hm
        rcases List.mem_cons.1 hm with e | e
        · exact hb e.symm
        · exact hu e
      · intro c hc
        rcases List.mem_cons.1 hc with e | e
        · simp [e]
        · simp [hux c e]
      · rw [List.cons_append, split_lines_cons_other b _ hb, hs]
        rfl

theorem exists_first_newline (t : List Byte) (h : 10 ∈ t) :
    ∃ t1 t2, t = t1 ++ 10 :: t2 ∧ 10 ∉ t1 := by
  induction t with
  | nil => simp at h
  | cons b t ih =>
    by_cases hb : b = 10
    · exact ⟨[], t, by simp [hb], by simp⟩
    · have ht : 10 ∈ t := by
        rcases List.mem_cons.1 h with e | e
        · exact absurd e.symm hb
        · exact e
      obtain ⟨t1, t2, ht12, ht1⟩ := ih ht
      refine ⟨b :: t1, t2, by simp [ht12], ?_⟩
      intro hm
      rcases List.mem_cons.1 hm with e | e
      · exact hb e.symm
      · exact ht1 e

theorem guard_byte_not_lower (c : Byte) : ¬ (97 ≤ guard_byte c ∧ guard_byte c ≤ 122) := by
  rintro ⟨h1, h2⟩
  unfold guard_byte toupper at h1 h2
  simp only at h1 h2
  unfold Byte at *
  split_ifs at h1 h2 <;> omega

theorem store_store (fs : FS) (p : Path) (c : List Byte) :
    (fs.store p c).store p c = fs.store p c := by
  funext q
  simp only [FS.store]
  split <;> rfl

theorem bytes_newline : bytes "\n" = [10] := rfl

/-- The lines of a rewritten file whose token holds no newline. -/
theorem split_lines_rewritten (T : CStr) (mid : List (List Byte)) (hT : 10 ∉ T)
    (hmid : ∀ l ∈ mid, full_line l) (hnul : ∀ l ∈ mid, 0 ∉ l) :
    split_lines (rewritten T mid) =
      (bytes "#ifndef " ++ T ++ bytes "\n") :: (bytes "#define " ++ T ++ bytes "\n") ::
        (mid ++ [bytes "#endif // " ++ T ++ bytes "\n"]) := by
  have hA : 10 ∉ bytes "#ifndef " ++ T := by
    intro h
    rcases List.mem_append.1 h with e | e
    · exact absurd e (by decide)
    · exact hT e
  have hB : 10 ∉ bytes "#define " ++ T := by
    intro h
    rcases List.mem_append.1 h with e | e
    · exact absurd e (by decide)
    · exact hT e
  have hC : 10 ∉ bytes "#endif // " ++ T := by
    intro h
    rcases List.mem_append.1 h with e | e
    · exact absurd e (by decide)
    · exact hT e
  have hshape : rewritten T mid =
      (bytes "#ifndef " ++ T) ++ 10 :: ((bytes "#define " ++ T) ++ 10 ::
        (mid.flatten ++ ((bytes "#endif // " ++ T) ++ 10 :: []))) := by
    unfold rewritten
    rw [map_cstr_eq_self mid hnul, bytes_newline]
    simp
  rw [hshape, split_lines_append_newline _ _ hA, split_lines_append_newline _ _ hB,
    split_lines_flatten_append _ _ hmid, split_lines_append_newline _ _ hC, bytes_newline]
  simp [split_lines]

/-- The second line of a rewritten file whose token holds a newline fails
the `#define` check: it is made of bytes of the token, none of which is a
lower-case letter. -/
theorem second_line_of_rewritten (T : CStr) (mid : List (List Byte)) (hT : 10 ∈ T)
    (hlow : ∀ b ∈ T, ¬ (97 ≤ b ∧ b ≤ 122)) (a1 a2 : List Byte) (ls : List (List Byte))
    (h : split_lines (rewritten T mid) = a1 :: a2 :: ls) : second_line_ok a2 = false := by
  obtain ⟨t1, t2, ht, ht1⟩ := exists_first_newline T hT
  have hA : 10 ∉ bytes "#ifndef " ++ t1 := by
    intro h
    rcases List.mem_append.1 h with e | e
    · exact absurd e (by decide)
    · exact ht1 e
  have hshape : rewritten T mid =
      (bytes "#ifndef " ++ t1) ++ 10 :: (t2 ++ 10 :: ((bytes "#define " ++ T ++ bytes "\n") ++
        (mid.map cstr).flatten ++ (bytes "#endif // " ++ T ++ bytes "\n"))) := by
    unfold rewritten
    rw [bytes_newline]
    nth_rewrite 1 [ht]
    simp
  obtain ⟨u, tl, _, hux, hs⟩ := split_lines_head t2 ((bytes "#define " ++ T ++ bytes "\n") ++
        (mid.map cstr).flatten ++ (bytes "#endif // " ++ T ++ bytes "\n"))
  rw [hshape, split_lines_append_newline _ _ hA, hs] at h
  simp only [List.cons.injEq] at h
  obtain ⟨_, ha2, _⟩ := h
  by_contra hc
  simp only [Bool.not_eq_false] at hc
  rw [second_line_ok_iff] at hc
  have hd : (100 : Byte) ∈ a2.take 7 := by
    rw [hc]
    decide
  have hd2 : (100 : Byte) ∈ a2 := List.mem_of_mem_take hd
  rw [← ha2] at hd2
  rcases List.mem_append.1 hd2 with e | e
  · have hT2 : (100 : Byte) ∈ T := by
      rw [ht]
      simp [hux 100 e]
    exact hlow 100 hT2 (by decide)
  · simp at e

/-- C5, as the code has it: on a file without NUL bytes, a second run of
`process_file` (no library failure in either run) leaves the file system the
first run left: the rewritten file is rewritten to itself, and a file the first
run rejected is rejected again and stays as it was. -/
theorem process_file_idempotent (base : CStr) (file : Path) (fs : FS) (content : List Byte)
    (hfs : fs file = some content) (hnul : 0 ∉ content) :
    (process_file Faults.clean base file (process_file Faults.clean base file fs).fs).fs =
      (process_file Faults.clean base file fs).fs := by
  by_cases hops : Op.openWrite ∈ (process_file Faults.clean base file fs).ops
  · obtain ⟨T, content1, l1, l2, mid, ll, hT, hfs1, hl, k1, k2, k3, _⟩ :=
      process_file_ok_inv _ _ _ _ hops
    rw [hfs] at hfs1
    cases hfs1
    have hrun := process_file_ok base file fs content T l1 l2 ll mid hT hfs hl k1 k2 k3
    rw [hrun]
    simp only
    by_cases hops2 : Op.openWrite ∈
        (process_file Faults.clean base file (fs.store file (rewritten T mid))).ops
    · obtain ⟨T2, content2, a1, a2, mid2, al, hT2, hfs2, hl2, j1, j2, j3, _⟩ :=
        process_file_ok_inv _ _ _ _ hops2
      rw [hT] at hT2
      cases hT2
      rw [store_same] at hfs2
      cases hfs2
      have hrun2 := process_file_ok base file (fs.store file (rewritten T mid))
        (rewritten T mid) T a1 a2 al mid2 hT (store_same _ _ _) hl2 j1 j2 j3
      rw [hrun2]
      simp only
      have hlines : ∀ l ∈ l1 :: l2 :: mid, full_line l :=
        full_line_of_split (l1 :: l2 :: mid) content ll (by rw [hl]; simp)
      have hmidfull : ∀ l ∈ mid, full_line l := fun l hlm => hlines l (by simp [hlm])
      have hmidnul : ∀ l ∈ mid, 0 ∉ l := by
        intro l hlm h0
        exact hnul (mem_of_mem_split_lines content l 0 (by rw [hl]; simp [hlm]) h0)
      obtain ⟨rest, _, hTr⟩ := (header_guard_eq_some_iff base file T).1 hT
      have hlow : ∀ b ∈ T, ¬ (97 ≤ b ∧ b ≤ 122) := by
        intro b hb
        rw [hTr] at hb
        obtain ⟨c, _, hc⟩ := List.mem_map.1 hb
        rw [← hc]
        exact guard_byte_not_lower c
      by_cases hnl : 10 ∈ T
      · have := second_line_of_rewritten T mid hnl hlow a1 a2 _ hl2
        rw [this] at j2
        cases j2
      · have hsl := split_lines_rewritten T mid hnl hmidfull hmidnul
        rw [hl2] at hsl
        simp only [List.cons.injEq] at hsl
        have hmm : mid2 = mid := List.append_inj_left' hsl.2.2 (by simp)
        rw [hmm, store_store]
    · rw [(process_file_no_commit _ _ _ _ hops2).2.1]
  · have hsame := (process_file_no_commit _ _ _ _ hops).2.1
    rw [hsame]
    exact hsame

/-- Witness for C5: the first run rewrites `/a/x.h` (the guard `X` becomes
`X_H`), the second run rewrites it again, to the same content. -/
theorem process_file_idempotent_witness :
    ((process_file Faults.clean (bytes "/a") (bytes "/a/x.h")
        (FS.single (bytes "/a/x.h")
          (bytes "#ifndef X\n#define X\nint x;\n#endif // X\n"))).status = .ok ∧
      (process_file Faults.clean (bytes "/a") (bytes "/a/x.h")
        (FS.single (bytes "/a/x.h")
          (bytes "#ifndef X\n#define X\nint x;\n#endif // X\n"))).fs (bytes "/a/x.h") =
        some (bytes "#ifndef X_H\n#define X_H\nint x;\n#endif // X_H\n")) ∧
    (process_file Faults.clean (bytes "/a") (bytes "/a/x.h")
      (process_file Faults.clean (bytes "/a") (bytes "/a/x.h")
        (FS.single (bytes "/a/x.h")
          (bytes "#ifndef X\n#define X\nint x;\n#endif // X\n"))).fs).status = .ok ∧
    (process_file Faults.clean (bytes "/a") (bytes "/a/x.h")
      (process_file Faults.clean (bytes "/a") (bytes "/a/x.h")
        (FS.single (bytes "/a/x.h")
          (bytes "#ifndef X\n#define X\nint x;\n#endif // X\n"))).fs).fs =
    (process_file Faults.clean (bytes "/a") (bytes "/a/x.h")
      (FS.single (bytes "/a/x.h") (bytes "#ifndef X\n#define X\nint x;\n#endif // X\n"))).fs :=
  ⟨by decide, by decide,
    process_file_idempotent (bytes "/a") (bytes "/a/x.h")
      (FS.single (bytes "/a/x.h") (bytes "#ifndef X\n#define X\nint x;\n#endif // X\n"))
      (bytes "#ifndef X\n#define X\nint x;\n#endif // X\n") (by decide) (by decide)⟩

/-- Counterexample to C5 as stated: on a file whose third line holds a NUL
byte after `#endif `, the first run joins the cut line with the new `#endif`
line, and the second run replaces the joined line, so two runs do not give the
content one run gives. -/
theorem process_file_not_idempotent_nul :
    (process_file Faults.clean (bytes "/a") (bytes "/a/x.h")
      (FS.single (bytes "/a/x.h")
        (bytes "#ifndef X\n#define X\n#endif \x00\n#endif \n"))).fs (bytes "/a/x.h") =
      some (bytes "#ifndef X_H\n#define X_H\n#endif #endif // X_H\n") ∧
    (process_file Faults.clean (bytes "/a") (bytes "/a/x.h")
      (process_file Faults.clean (bytes "/a") (bytes "/a/x.h")
        (FS.single (bytes "/a/x.h")
          (bytes "#ifndef X\n#define X\n#endif \x00\n#endif \n"))).fs).fs (bytes "/a/x.h") =
      some (bytes "#ifndef X_H\n#define X_H\n#endif // X_H\n") ∧
    (process_file Faults.clean (bytes "/a") (bytes "/a/x.h")
      (process_file Faults.clean (bytes "/a") (bytes "/a/x.h")
        (FS.single (bytes "/a/x.h")
          (bytes "#ifndef X\n#define X\n#endif \x00\n#endif \n"))).fs).fs (bytes "/a/x.h") ≠
    (process_file Faults.clean (bytes "/a") (bytes "/a/x.h")
      (FS.single (bytes "/a/x.h")
        (bytes "#ifndef X\n#define X\n#endif \x00\n#endif \n"))).fs (bytes "/a/x.h") := by
  decide

/-! ## C15: blank lines -/

theorem blank_line_take_ne (l w : List Byte) (hb : blank_line l = true) (hw : 35 ∈ w) :
    l.take 7 ≠ w := by
  intro h
  have h35 : (35 : Byte) ∈ l := List.mem_of_mem_take (h ▸ hw)
  unfold blank_line at hb
  rw [List.all_eq_true] at hb
  have := hb 35 h35
  simp at this

theorem blank_line_checks (l : List Byte) (hb : blank_line l = true) :
    first_line_ok l = false ∧ second_line_ok l = false ∧ last_line_ok l = false := by
  refine ⟨?_, ?_, ?_⟩
  · by_contra h
    simp only [Bool.not_eq_false] at h
    exact blank_line_take_ne l _ hb (by decide) ((first_line_ok_iff l).1 h)
  · by_contra h
    simp only [Bool.not_eq_false] at h
    exact blank_line_take_ne l _ hb (by decide) ((second_line_ok_iff l).1 h)
  · by_contra h
    simp only [Bool.not_eq_false] at h
    exact blank_line_take_ne l _ hb (by decide) ((last_line_ok_iff l).1 h)

/-- The run on a file that opens, with no library failure before the commit:
the three checks in order, then the commit. -/
theorem process_file_lines (flt : Faults) (base : CStr) (file : Path) (fs : FS)
    (content T l1 l2 ll : List Byte) (mid : List (List Byte))
    (hT : header_guard base file = some T) (hfs : fs file = some content)
    (hl : split_lines content = l1 :: l2 :: (mid ++ [ll]))
    (hm : flt.memstream = false) (hr : flt.readAt = none) :
    process_file flt base file fs =
      if !first_line_ok l1 then ⟨.badFirstLine, fs, [.openRead]⟩
      else if !second_line_ok l2 then ⟨.badSecondLine, fs, [.openRead]⟩
      else if !last_line_ok ll then ⟨.badLastLine, fs, [.openRead]⟩
      else if flt.flush then ⟨.flushFailed, fs, [.openRead]⟩
      else commit flt file fs (rewritten T mid) := by
  unfold process_file
  simp only [hT, hfs, hm]
  have hs : open_stream content flt.readAt =
      (l1 :: l2 :: (mid ++ [ll])).map ReadEvent.line := by
    simp [open_stream, hr, hl]
  rw [hs, rewrite_lines]
  by_cases k1 : first_line_ok l1 = true
  · by_cases k2 : second_line_ok l2 = true
    · by_cases k3 : last_line_ok ll = true
      · by_cases k4 : flt.flush = true
        · simp [k1, k2, k3, k4]
        · simp [k1, k2, k3, k4]
      · simp [k1, k2, k3]
    · simp [k1, k2]
  · simp [k1]

/-- C15, as the code has it: blank lines are lines like any other.  With no
library failure, a file under the base whose first line is blank stops with
"First line does not begin with #ifndef", and a file of at least three lines
whose first two lines pass and whose last line is blank stops with "Last line
does not begin with #endif"; the file system is unchanged in both cases. -/
theorem process_file_blank_lines (base : CStr) (file : Path) (fs : FS) (content T : List Byte)
    (hT : header_guard base file = some T) (hfs : fs file = some content) :
    (∀ l1 rest, split_lines content = l1 :: rest → blank_line l1 = true →
      (process_file Faults.clean base file fs).status = .badFirstLine ∧
      (process_file Faults.clean base file fs).fs = fs) ∧
    (∀ l1 l2 mid ll, split_lines content = l1 :: l2 :: (mid ++ [ll]) →
      first_line_ok l1 = true → second_line_ok l2 = true → blank_line ll = true →
      (process_file Faults.clean base file fs).status = .badLastLine ∧
      (process_file Faults.clean base file fs).fs = fs) := by
  constructor
  · intro l1 rest hl hb
    obtain ⟨s, hs⟩ := open_stream_cons content l1 rest Faults.clean.readAt hl (by decide)
    have hbad := (rewrite_bad_first_iff Faults.clean T l1 s).2 (blank_line_checks l1 hb).1
    unfold process_file
    simp only [hT, hfs, hs, hbad]
    simp [Faults.clean]
  · intro l1 l2 mid ll hl k1 k2 hb
    rw [process_file_lines Faults.clean base file fs content T l1 l2 ll mid hT hfs hl rfl rfl]
    simp [k1, k2, (blank_line_checks ll hb).2.2]

/-- Witness for C15: a blank line before the guard, and a blank line after
the `#endif` line. -/
theorem process_file_blank_lines_witness :
    ((process_file Faults.clean (bytes "/a") (bytes "/a/x.h")
        (FS.single (bytes "/a/x.h")
          (bytes "\n#ifndef X\n#define X\nint x;\n#endif // X\n"))).status = .badFirstLine ∧
      (process_file Faults.clean (bytes "/a") (bytes "/a/x.h")
        (FS.single (bytes "/a/x.h")
          (bytes "\n#ifndef X\n#define X\nint x;\n#endif // X\n"))).fs =
        FS.single (bytes "/a/x.h") (bytes "\n#ifndef X\n#define X\nint x;\n#endif // X\n")) ∧
    ((process_file Faults.clean (bytes "/a") (bytes "/a/x.h")
        (FS.single (bytes "/a/x.h")
          (bytes "#ifndef X\n#define X\nint x;\n#endif // X\n\n"))).status = .badLastLine ∧
      (process_file Faults.clean (bytes "/a") (bytes "/a/x.h")
        (FS.single (bytes "/a/x.h")
          (bytes "#ifndef X\n#define X\nint x;\n#endif // X\n\n"))).fs =
        FS.single (bytes "/a/x.h") (bytes "#ifndef X\n#define X\nint x;\n#endif // X\n\n")) :=
  ⟨(process_file_blank_lines (bytes "/a") (bytes "/a/x.h")
      (FS.single (bytes "/a/x.h") (bytes "\n#ifndef X\n#define X\nint x;\n#endif // X\n"))
      (bytes "\n#ifndef X\n#define X\nint x;\n#endif // X\n") (bytes "X_H")
      (by decide) (by decide)).1 (bytes "\n")
      [bytes "#ifndef X\n", bytes "#define X\n", bytes "int x;\n", bytes "#endif // X\n"]
      (by decide) (by decide),
    (process_file_blank_lines (bytes "/a") (bytes "/a/x.h")
      (FS.single (bytes "/a/x.h") (bytes "#ifndef X\n#define X\nint x;\n#endif // X\n\n"))
      (bytes "#ifndef X\n#define X\nint x;\n#endif // X\n\n") (bytes "X_H")
      (by decide) (by decide)).2 (bytes "#ifndef X\n") (bytes "#define X\n")
      [bytes "int x;\n", bytes "#endif // X\n"] (bytes "\n")
      (by decide) (by decide) (by decide) (by decide)⟩

/-- Counterexample to C15 as stated: a well-formed guard preceded by one
blank line, and a well-formed guard followed by one blank line, are both
rejected and left as they were; the same files without the blank line are
accepted. -/
theorem process_file_blank_lines_rejected :
    ((process_file Faults.clean (bytes "/a") (bytes "/a/x.h")
        (FS.single (bytes "/a/x.h")
          (bytes "\n#ifndef X\n#define X\nint x;\n#endif // X\n"))).status = .badFirstLine ∧
      (process_file Faults.clean (bytes "/a") (bytes "/a/x.h")
        (FS.single (bytes "/a/x.h")
          (bytes "\n#ifndef X\n#define X\nint x;\n#endif // X\n"))).fs (bytes "/a/x.h") =
        some (bytes "\n#ifndef X\n#define X\nint x;\n#endif // X\n")) ∧
    ((process_file Faults.clean (bytes "/a") (bytes "/a/x.h")
        (FS.single (bytes "/a/x.h")
          (bytes "#ifndef X\n#define X\nint x;\n#endif // X\n\n"))).status = .badLastLine ∧
      (process_file Faults.clean (bytes "/a") (bytes "/a/x.h")
        (FS.single (bytes "/a/x.h")
          (bytes "#ifndef X\n#define X\nint x;\n#endif // X\n\n"))).fs (bytes "/a/x.h") =
        some (bytes "#ifndef X\n#define X\nint x;\n#endif // X\n\n")) ∧
    (process_file Faults.clean (bytes "/a") (bytes "/a/x.h")
        (FS.single (bytes "/a/x.h")
          (bytes "#ifndef X\n#define X\nint x;\n#endif // X\n"))).status = .ok := by
  decide

/-! ## C16: the one-line lookahead -/

theorem lookahead_eq (rs : List (List Byte)) (p : List Byte) (em : List (List Byte)) :
    lookahead rs p em =
      (em ++ (p :: rs).dropLast, (p :: rs).getLast (List.cons_ne_nil p rs)) := by
  induction rs generalizing p em with
  | nil => simp [lookahead]
  | cons r rs ih =>
    rw [lookahead, ih]
    simp [List.dropLast_cons₂, List.getLast_cons_cons]

theorem copy_loop_eq (rs : List (List Byte)) (p tmp : List Byte) :
    copy_loop (rs.map ReadEvent.line) p tmp =
      ((p :: rs).getLast (List.cons_ne_nil p rs),
        tmp ++ ((p :: rs).dropLast.map cstr).flatten, true) := by
  induction rs generalizing p tmp with
  | nil => simp [copy_loop]
  | cons r rs ih =>
    rw [List.map_cons, copy_loop, ih]
    simp [List.dropLast_cons₂, List.getLast_cons_cons]

/-- C16: on the lines `r1 :: rs` that follow the two guard lines, the loop
of lines 162-167, run as a machine whose state is the pending line, emits all
lines but the last, in order, and ends with the last line pending, as the
direct definition says; the memory stream receives the emitted lines, each as
`fprintf(tmp, "%s", line1)` prints it (whole when it holds no NUL byte), and
never the final line. -/
theorem lookahead_refines (r1 : List Byte) (rs : List (List Byte)) (tmp : List Byte) :
    lookahead rs r1 [] = lookahead_spec r1 rs ∧
    copy_loop (rs.map ReadEvent.line) r1 tmp =
      ((lookahead_spec r1 rs).2, tmp ++ ((lookahead_spec r1 rs).1.map cstr).flatten, true) ∧
    ((∀ l ∈ r1 :: rs, 0 ∉ l) →
      (copy_loop (rs.map ReadEvent.line) r1 tmp).2.1 =
        tmp ++ (lookahead_spec r1 rs).1.flatten) := by
  refine ⟨?_, ?_, ?_⟩
  · rw [lookahead_eq]
    simp [lookahead_spec]
  · rw [copy_loop_eq]
    rfl
  · intro h
    rw [copy_loop_eq]
    have hd : ∀ l ∈ (r1 :: rs).dropLast, 0 ∉ l :=
      fun l hl => h l (List.mem_of_mem_dropLast hl)
    simp only [lookahead_spec]
    rw [map_cstr_eq_self _ hd]

/-- Witness for C16: three remaining lines, the last one being the `#endif`
line. -/
theorem lookahead_refines_witness :
    lookahead [bytes "int y;\n", bytes "#endif // X\n"] (bytes "int x;\n") [] =
      ([bytes "int x;\n", bytes "int y;\n"], bytes "#endif // X\n") ∧
    (copy_loop ([bytes "int y;\n", bytes "#endif // X\n"].map ReadEvent.line)
      (bytes "int x;\n") (bytes "#define X_H\n")).2.1 =
      bytes "#define X_H\n" ++ [bytes "int x;\n", bytes "int y;\n"].flatten :=
  have h := lookahead_refines (bytes "int x;\n") [bytes "int y;\n", bytes "#endif // X\n"]
    (bytes "#define X_H\n")
  ⟨h.1, h.2.2 (by decide)⟩

/-! ## C17: the last line -/

/-- C17: for a file under the base with at least three lines whose first two
lines pass their checks, when the memory stream opens and no read error
occurs, `process_file` stops with "Last line does not begin with #endif"
exactly when the first 7 bytes of the last line are not `#endif` followed by
one space; the file system is then unchanged. -/
theorem process_file_last_line (flt : Faults) (base : CStr) (file : Path) (fs : FS)
    (content T l1 l2 ll : List Byte) (mid : List (List Byte))
    (hT : header_guard base file = some T) (hfs : fs file = some content)
    (hl : split_lines content = l1 :: l2 :: (mid ++ [ll]))
    (h1 : first_line_ok l1 = true) (h2 : second_line_ok l2 = true)
    (hm : flt.memstream = false) (hr : flt.readAt = none) :
    ((process_file flt base file fs).status = .badLastLine ↔
      ll.take 7 ≠ bytes "#endif ") ∧
    ((process_file flt base file fs).status = .badLastLine →
      (process_file flt base file fs).fs = fs) := by
  have hx : ll.take 7 ≠ bytes "#endif " ↔ last_line_ok ll = false := by
    rw [Ne, ← last_line_ok_iff]
    simp
  rw [hx, process_file_lines flt base file fs content T l1 l2 ll mid hT hfs hl hm hr]
  simp only [h1, h2, Bool.not_true, Bool.false_eq_true, if_false]
  by_cases k3 : last_line_ok ll = true
  · simp only [k3, Bool.not_true, Bool.false_eq_true, if_false]
    by_cases k4 : flt.flush = true
    · simp [k4]
    · simp only [k4, if_false]
      have hcs := commit_status flt file fs (rewritten T mid)
      have hnot : (commit flt file fs (rewritten T mid)).status ≠ .badLastLine := by
        intro hc
        rw [hc] at hcs
        simp at hcs
      exact ⟨⟨fun hc => absurd hc hnot, fun hc => by simp at hc⟩, fun hc => absurd hc hnot⟩
  · simp [k3]

/-- Witness for C17: a bare `#endif` line stops with the last-line error
and a line `#endif // X` does not. -/
theorem process_file_last_line_witness :
    (process_file Faults.clean (bytes "/a") (bytes "/a/x.h")
      (FS.single (bytes "/a/x.h") (bytes "#ifndef X\n#define X\n#endif\n"))).status
      = .badLastLine ∧
    (process_file Faults.clean (bytes "/a") (bytes "/a/x.h")
      (FS.single (bytes "/a/x.h") (bytes "#ifndef X\n#define X\n#endif // X\n"))).status
      ≠ .badLastLine :=
  have h1 := process_file_last_line Faults.clean (bytes "/a") (bytes "/a/x.h")
    (FS.single (bytes "/a/x.h") (bytes "#ifndef X\n#define X\n#endif\n"))
    (bytes "#ifndef X\n#define X\n#endif\n") (bytes "X_H") (bytes "#ifndef X\n")
    (bytes "#define X\n") (bytes "#endif\n") [] (by decide) (by decide) (by decide)
    (by decide) (by decide) (by decide) (by decide)
  have h2 := process_file_last_line Faults.clean (bytes "/a") (bytes "/a/x.h")
    (FS.single (bytes "/a/x.h") (bytes "#ifndef X\n#define X\n#endif // X\n"))
    (bytes "#ifndef X\n#define X\n#endif // X\n") (bytes "X_H") (bytes "#ifndef X\n")
    (bytes "#define X\n") (bytes "#endif // X\n") [] (by decide) (by decide) (by decide)
    (by decide) (by decide) (by decide) (by decide)
  ⟨h1.1.2 (by decide), fun hbad => h2.1.1 hbad (by decide)⟩

/-! ## C18 and C19: the alphabet of the token, and collisions -/

theorem guard_byte_ne_slash_dot (c : Byte) : guard_byte c ≠ 47 ∧ guard_byte c ≠ 46 := by
  unfold guard_byte toupper
  simp only
  unfold Byte at *
  split_ifs <;> omega

theorem guard_byte_other (c : Byte) (h1 : c ≠ 47) (h2 : c ≠ 46)
    (h3 : ¬ (97 ≤ c ∧ c ≤ 122)) : guard_byte c = c := by
  unfold guard_byte toupper
  simp only
  unfold Byte at *
  split_ifs <;> omega

/-- C18: for a path made of `base`, one `/` and a remainder, the token has
the length of the remainder, holds no `/`, no `.` and no lower-case letter, and
every byte of the remainder that is none of these stands unchanged at the same
position of the token. -/
theorem header_guard_alphabet (base rest : CStr) :
    header_guard base (base ++ bytes "/" ++ rest) = some (rest.map guard_byte) ∧
    (rest.map guard_byte).length = rest.length ∧
    47 ∉ rest.map guard_byte ∧ 46 ∉ rest.map guard_byte ∧
    (∀ b ∈ rest.map guard_byte, ¬ (97 ≤ b ∧ b ≤ 122)) ∧
    (∀ (i : Nat) (c : Byte), rest[i]? = some c → c ≠ 47 → c ≠ 46 → ¬ (97 ≤ c ∧ c ≤ 122) →
      (rest.map guard_byte)[i]? = some c) := by
  refine ⟨?_, by simp, ?_, ?_, ?_, ?_⟩
  · rw [header_guard_eq_some_iff]
    exact ⟨rest, rfl, rfl⟩
  · intro h
    obtain ⟨c, _, hc⟩ := List.mem_map.1 h
    exact (guard_byte_ne_slash_dot c).1 hc
  · intro h
    obtain ⟨c, _, hc⟩ := List.mem_map.1 h
    exact (guard_byte_ne_slash_dot c).2 hc
  · intro b hb
    obtain ⟨c, _, hc⟩ := List.mem_map.1 hb
    rw [← hc]
    exact guard_byte_not_lower c
  · intro i c hi h1 h2 h3
    rw [List.getElem?_map, hi]
    simp [guard_byte_other c h1 h2 h3]

/-- Witness for C18: in `my-File_2.h` under `/a`, the bytes `-`, `F`, `_` and
`2` keep their place. -/
theorem header_guard_alphabet_witness :
    header_guard (bytes "/a") (bytes "/a" ++ bytes "/" ++ bytes "my-File_2.h") =
      some (bytes "MY-FILE_2_H") ∧
    ((bytes "my-File_2.h").map guard_byte)[2]? = some 45 ∧
    ((bytes "my-File_2.h").map guard_byte)[3]? = some 70 ∧
    ((bytes "my-File_2.h").map guard_byte)[7]? = some 95 ∧
    ((bytes "my-File_2.h").map guard_byte)[8]? = some 50 :=
  have h := header_guard_alphabet (bytes "/a") (bytes "my-File_2.h")
  ⟨h.1.trans (by decide),
    h.2.2.2.2.2 2 45 (by decide) (by decide) (by decide) (by decide),
    h.2.2.2.2.2 3 70 (by decide) (by decide) (by decide) (by decide),
    h.2.2.2.2.2 7 95 (by decide) (by decide) (by decide) (by decide),
    h.2.2.2.2.2 8 50 (by decide) (by decide) (by decide) (by decide)⟩

/-- C19: the token is not injective on the paths under one base: under `/r`,
the paths `a/b.h` and `a_b.h` both get `A_B_H`, and `x.h` and `X.H` both get
`X_H`. -/
theorem header_guard_collisions :
    (∃ base f1 f2 : CStr, f1 ≠ f2 ∧ (header_guard base f1).isSome = true ∧
      header_guard base f1 = header_guard base f2) ∧
    (bytes "/r/a/b.h" ≠ bytes "/r/a_b.h" ∧
      header_guard (bytes "/r") (bytes "/r/a/b.h") = some (bytes "A_B_H") ∧
      header_guard (bytes "/r") (bytes "/r/a_b.h") = some (bytes "A_B_H")) ∧
    (bytes "/r/x.h" ≠ bytes "/r/X.H" ∧
      header_guard (bytes "/r") (bytes "/r/x.h") = some (bytes "X_H") ∧
      header_guard (bytes "/r") (bytes "/r/X.H") = some (bytes "X_H")) := by
  refine ⟨⟨bytes "/r", bytes "/r/a/b.h", bytes "/r/a_b.h", ?_, ?_, ?_⟩, ?_, ?_⟩ <;> decide

/-! ## Lemmas on `parse_args` -/

theorem parse_loop_succ (realpath : CStr → Option Path) (argc fuel i : Nat)
    (st : ParseState) :
    parse_loop realpath argc (fuel + 1) i st =
      if i < argc then
        match parse_step realpath argc i st with
        | .exit_failure => .exit_failure
        | .next j st2 => parse_loop realpath argc fuel j st2
      else .done st := by
  rw [parse_loop]
  unfold parse_step
  simp only
  split_ifs <;> try rfl
  all_goals (split <;> rfl)

theorem parse_loop_end (realpath : CStr → Option Path) (argc fuel i : Nat)
    (st : ParseState) (h : argc ≤ i) : parse_loop realpath argc fuel i st = .done st := by
  have hn : ¬ i < argc := by omega
  cases fuel with
  | zero => simp [parse_loop, hn]
  | succ fuel => rw [parse_loop_succ, if_neg hn]

theorem getD_of_drop_eq (l1 l2 : List CStr) (i j : Nat) (h : l1.drop i = l2.drop i) :
    l1.getD (i + j) [] = l2.getD (i + j) [] := by
  rw [List.getD_eq_getElem?_getD, List.getD_eq_getElem?_getD, ← List.getElem?_drop,
    ← List.getElem?_drop, h]

theorem take_succ_set (l : List CStr) (n : Nat) (p : CStr) (h : n < l.length) :
    (l.set n p).take (n + 1) = l.take n ++ [p] := by
  induction l generalizing n with
  | nil => simp at h
  | cons a l ih =>
    cases n with
    | zero => simp
    | succ n =>
      have hl : n < l.length := by simpa using h
      simp only [List.set_cons_succ, List.take_succ_cons, List.cons_append]
      rw [ih n hl]

theorem drop_add_of_drop_eq (l1 l2 : List CStr) (i k : Nat) (h : l1.drop i = l2.drop i) :
    l1.drop (i + k) = l2.drop (i + k) := by
  rw [← List.drop_drop, ← List.drop_drop, h]

theorem parse_inv_init (argv : List CStr) : parse_inv argv 1 ⟨argv, none, 0⟩ :=
  ⟨Nat.le_refl 1, Nat.zero_lt_one, rfl, rfl⟩

theorem parse_inv_flag (args : List CStr) (i : Nat) (st : ParseState) (b : Option CStr)
    (h : parse_inv args i st) : parse_inv args (i + 2) { st with base := b } := by
  obtain ⟨h1, h2, h3, h4⟩ := h
  exact ⟨by omega, by simp only; omega, h3, drop_add_of_drop_eq _ _ i 2 h4⟩

theorem parse_inv_skip (args : List CStr) (i : Nat) (st : ParseState)
    (h : parse_inv args i st) : parse_inv args (i + 1) st := by
  obtain ⟨h1, h2, h3, h4⟩ := h
  exact ⟨by omega, by omega, h3, drop_add_of_drop_eq _ _ i 1 h4⟩

theorem parse_inv_store (args : List CStr) (i : Nat) (st : ParseState) (p : Path)
    (h : parse_inv args i st) :
    parse_inv args (i + 1)
      { st with argv := st.argv.set st.file_count p, file_count := st.file_count + 1 } := by
  obtain ⟨h1, h2, h3, h4⟩ := h
  refine ⟨by omega, by simp only; omega, by simp [h3], ?_⟩
  simp only
  rw [List.drop_set_of_lt p st.argv (by omega)]
  exact drop_add_of_drop_eq _ _ i 1 h4

/-- One iteration keeps the invariant and advances the index. -/
theorem parse_step_inv (realpath : CStr → Option Path) (args : List CStr) (i : Nat)
    (st : ParseState) (j : Nat) (st2 : ParseState) (h : parse_inv args i st)
    (hs : parse_step realpath args.length i st = .next j st2) :
    parse_inv args j st2 ∧ i < j := by
  unfold parse_step at hs
  simp only at hs
  split_ifs at hs with hflag hlast hset
  · split at hs
    · cases hs
    · simp only [Step.next.injEq] at hs
      obtain ⟨hj, hst⟩ := hs
      subst hj
      subst hst
      exact ⟨parse_inv_flag args i st _ h, by omega⟩
  · split at hs
    · simp only [Step.next.injEq] at hs
      obtain ⟨hj, hst⟩ := hs
      subst hj
      subst hst
      exact ⟨parse_inv_skip args i st h, by omega⟩
    · simp only [Step.next.injEq] at hs
      obtain ⟨hj, hst⟩ := hs
      subst hj
      subst hst
      exact ⟨parse_inv_store args i st _ h, by omega⟩

theorem fatal_args_cons_file (realpath : CStr → Option Path) (a : CStr) (l : List CStr)
    (set : Bool) (h : ¬ (a = bytes "-b" ∨ a = bytes "--base")) :
    fatal_args realpath (a :: l) set = fatal_args realpath l set := by
  cases l with
  | nil => simp [fatal_args, h]
  | cons v rest => simp [fatal_args, h]

theorem file_args_cons_file (a : CStr) (l : List CStr)
    (h : ¬ (a = bytes "-b" ∨ a = bytes "--base")) :
    file_args (a :: l) = a :: file_args l := by
  cases l with
  | nil => simp [file_args, h]
  | cons v rest => simp [file_args, h]

theorem base_arg_cons_file (a : CStr) (l : List CStr)
    (h : ¬ (a = bytes "-b" ∨ a = bytes "--base")) :
    base_arg (a :: l) = base_arg l := by
  cases l with
  | nil => simp [base_arg]
  | cons v rest => simp [base_arg, h]

/-- Once a base is set, a command line without fatal flag has no flag at
all. -/
theorem no_flag_of_not_fatal (realpath : CStr → Option Path) (l : List CStr)
    (h : fatal_args realpath l true = false) :
    base_arg l = none ∧ ∀ a ∈ l, ¬ (a = bytes "-b" ∨ a = bytes "--base") := by
  induction l with
  | nil => simp [base_arg]
  | cons a l ih =>
    by_cases hf : a = bytes "-b" ∨ a = bytes "--base"
    · cases l with
      | nil => simp [fatal_args, hf] at h
      | cons v rest => simp [fatal_args, hf] at h
    · rw [fatal_args_cons_file realpath a l true hf] at h
      obtain ⟨h1, h2⟩ := ih h
      refine ⟨by rw [base_arg_cons_file a l hf, h1], ?_⟩
      intro x hx
      rcases List.mem_cons.1 hx with e | e
      · rw [e]; exact hf
      · exact h2 x e

/-- The loop of `parse_args` computes what the specification says of the
arguments still to read: it exits on a fatal flag, and otherwise appends the
canonical paths of the FILE arguments and sets the base from the flag. -/
theorem parse_loop_spec (realpath : CStr → Option Path) (args : List CStr) (fuel i : Nat)
    (st : ParseState) (h : parse_inv args i st) (hf : args.length ≤ i + fuel) :
    (fatal_args realpath (args.drop i) st.base.isSome = true ∧
      parse_loop realpath args.length fuel i st = .exit_failure) ∨
    (fatal_args realpath (args.drop i) st.base.isSome = false ∧
      ∃ st2, parse_loop realpath args.length fuel i st = .done st2 ∧
        st2.files = st.files ++ (file_args (args.drop i)).filterMap realpath ∧
        st2.file_count = st.file_count + ((file_args (args.drop i)).filterMap realpath).length ∧
        st2.argv.length = args.length ∧
        st2.base = (match base_arg (args.drop i) with
                    | none => st.base
                    | some v => (realpath v).map effective_base)) := by
  induction fuel generalizing i st with
  | zero =>
    have hle : args.length ≤ i := by omega
    right
    rw [List.drop_eq_nil_of_le hle]
    exact ⟨rfl, st, parse_loop_end _ _ _ _ _ hle, by simp [file_args], by simp [file_args],
      h.2.2.1, by simp [base_arg]⟩
  | succ fuel ih =>
    by_cases hi : i < args.length
    · obtain ⟨h1, h2, h3, h4⟩ := h
      have e0 : st.argv.getD i [] = args.getD i [] := by
        simpa using getD_of_drop_eq st.argv args i 0 h4
      have e1 : st.argv.getD (i + 1) [] = args.getD (i + 1) [] :=
        getD_of_drop_eq st.argv args i 1 h4
      have hd : args.drop i = args.getD i [] :: args.drop (i + 1) := by
        rw [List.drop_eq_getElem_cons hi, List.getD_eq_getElem args [] hi]
      rw [parse_loop_succ, if_pos hi, hd]
      unfold parse_step
      simp only [e0, e1]
      generalize args.getD i [] = a at *
      by_cases hflag : a = bytes "-b" ∨ a = bytes "--base"
      · simp only [hflag, if_true]
        by_cases hlast : i + 1 = args.length
        · left
          rw [List.drop_eq_nil_of_le (by omega)]
          simp [fatal_args, hflag, hlast]
        · have hi1 : i + 1 < args.length := by omega
          have hd1 : args.drop (i + 1) = args.getD (i + 1) [] :: args.drop (i + 2) := by
            rw [List.drop_eq_getElem_cons hi1, List.getD_eq_getElem args [] hi1]
          rw [hd1]
          generalize args.getD (i + 1) [] = v at *
          simp only [hlast, if_false]
          by_cases hset : st.base.isSome = true
          · left
            simp [fatal_args, hflag, hset]
          · simp only [hset, if_false]
            cases hr : realpath v with
            | none =>
              left
              simp [fatal_args, hflag, hr]
            | some p =>
              simp only
              have hinv := parse_inv_flag args i st
                (some (if p ≠ bytes "/" then p else bytes "")) ⟨h1, h2, h3, h4⟩
              rcases ih (i + 2) _ hinv (by omega) with ⟨hfat, hex⟩ | ⟨hfat, st3, hdone, hfiles, hcount, hlen, hbase⟩
              · left
                simp only [Option.isSome_some] at hfat
                refine ⟨by simp [fatal_args, hflag, hfat], ?_⟩
                exact hex
              · right
                simp only [Option.isSome_some] at hfat
                have hset2 : st.base.isSome = false := by simpa using hset
                refine ⟨by simp [fatal_args, hflag, hfat, hr, hset2], st3, hdone, ?_, ?_, hlen, ?_⟩
                · rw [hfiles]
                  simp [file_args, hflag, ParseState.files]
                · rw [hcount]
                  simp [file_args, hflag]
                · rw [hbase, (no_flag_of_not_fatal realpath _ hfat).1]
                  simp [base_arg, hflag, hr, effective_base]
      · simp only [hflag, if_false]
        rw [fatal_args_cons_file realpath a _ _ hflag, file_args_cons_file a _ hflag,
          base_arg_cons_file a _ hflag]
        cases hr : realpath a with
        | none =>
          simp only
          have hinv := parse_inv_skip args i st ⟨h1, h2, h3, h4⟩
          rcases ih (i + 1) st hinv (by omega) with ⟨hfat, hex⟩ | ⟨hfat, st3, hdone, hfiles, hcount, hlen, hbase⟩
          · left
            exact ⟨hfat, hex⟩
          · right
            refine ⟨hfat, st3, hdone, ?_, ?_, hlen, hbase⟩
            · rw [hfiles, List.filterMap_cons_none hr]
            · rw [hcount, List.filterMap_cons_none hr]
        | some p =>
          simp only
          have hinv := parse_inv_store args i st p ⟨h1, h2, h3, h4⟩
          have hfc : st.file_count < st.argv.length := by omega
          rcases ih (i + 1) _ hinv (by omega) with ⟨hfat, hex⟩ | ⟨hfat, st3, hdone, hfiles, hcount, hlen, hbase⟩
          · left
            exact ⟨hfat, hex⟩
          · right
            refine ⟨hfat, st3, hdone, ?_, ?_, hlen, hbase⟩
            · rw [hfiles, List.filterMap_cons_some hr]
              simp [ParseState.files, take_succ_set st.argv st.file_count p hfc]
            · rw [hcount, List.filterMap_cons_some hr]
              simp only [List.length_cons]
              omega
    · have hle : args.length ≤ i := by omega
      right
      rw [List.drop_eq_nil_of_le hle]
      exact ⟨rfl, st, parse_loop_end _ _ _ _ _ hle, by simp [file_args], by simp [file_args],
        h.2.2.1, by simp [base_arg]⟩

theorem parse_args_spec (realpath : CStr → Option Path) (argv : List CStr) :
    (fatal_args realpath argv.tail false = true ∧
      parse_args realpath argv = .exit_failure) ∨
    (fatal_args realpath argv.tail false = false ∧
      ∃ st, parse_args realpath argv = .done st ∧
        st.files = (file_args argv.tail).filterMap realpath ∧
        st.file_count = ((file_args argv.tail).filterMap realpath).length ∧
        st.argv.length = argv.length ∧
        st.base = (match base_arg argv.tail with
                   | none => none
                   | some v => (realpath v).map effective_base)) := by
  have h := parse_loop_spec realpath argv argv.length 1 ⟨argv, none, 0⟩
    (parse_inv_init argv) (by omega)
  rw [List.drop_one] at h
  rcases h with ⟨hfat, hex⟩ | ⟨hfat, st, hdone, hfiles, hcount, hlen, hbase⟩
  · left
    exact ⟨hfat, hex⟩
  · right
    refine ⟨hfat, st, hdone, ?_, ?_, hlen, hbase⟩
    · simpa [ParseState.files] using hfiles
    · simpa using hcount

theorem fatal_args_no_flag (realpath : CStr → Option Path) (l : List CStr) (set : Bool)
    (h : ∀ a ∈ l, ¬ (a = bytes "-b" ∨ a = bytes "--base")) :
    fatal_args realpath l set = false := by
  induction l with
  | nil => rfl
  | cons a l ih =>
    rw [fatal_args_cons_file realpath a l set (h a (by simp))]
    exact ih (fun x hx => h x (by simp [hx]))

/-! ## C11: a base that is the root -/

/-- C11: when `parse_args` returns and the argument of the `-b`/`--base` flag
canonicalizes to `/`, the base is the empty string; with that base the token
of an absolute path is computed from the path without its leading `/`, and
`/foo/bar.h` gets `FOO_BAR_H`. -/
theorem parse_args_root_base (realpath : CStr → Option Path) (argv : List CStr)
    (st : ParseState) (v : CStr) (h : parse_args realpath argv = .done st)
    (hv : base_arg argv.tail = some v) (hroot : realpath v = some (bytes "/")) :
    st.base = some (bytes "") ∧
    (∀ rest, header_guard (bytes "") (bytes "/" ++ rest) = some (token_spec rest)) ∧
    header_guard (bytes "") (bytes "/foo/bar.h") = some (bytes "FOO_BAR_H") := by
  refine ⟨?_, ?_, by decide⟩
  · rcases parse_args_spec realpath argv with ⟨_, hex⟩ | ⟨_, st2, hdone, _, _, _, hbase⟩
    · rw [h] at hex
      cases hex
    · rw [h] at hdone
      cases hdone
      rw [hbase, hv]
      simp [hroot, effective_base]
  · intro rest
    rw [header_guard_eq_some_iff]
    refine ⟨rest, rfl, ?_⟩
    simp [token_spec, List.map_map, Function.comp_def, guard_byte]

/-- Witness for C11: `prog --base / /foo/bar.h`. -/
theorem parse_args_root_base_witness :
    parse_args some [bytes "prog", bytes "--base", bytes "/", bytes "/foo/bar.h"] =
      .done ⟨[bytes "/foo/bar.h", bytes "--base", bytes "/", bytes "/foo/bar.h"],
        some (bytes ""), 1⟩ ∧
    (ParseState.mk [bytes "/foo/bar.h", bytes "--base", bytes "/", bytes "/foo/bar.h"]
      (some (bytes "")) 1).base = some (bytes "") ∧
    header_guard (bytes "") (bytes "/" ++ bytes "foo/bar.h") =
      some (token_spec (bytes "foo/bar.h")) :=
  have h := parse_args_root_base some
    [bytes "prog", bytes "--base", bytes "/", bytes "/foo/bar.h"]
    ⟨[bytes "/foo/bar.h", bytes "--base", bytes "/", bytes "/foo/bar.h"], some (bytes ""), 1⟩
    (bytes "/") (by decide) (by decide) (by decide)
  ⟨by decide, h.1, h.2.1 (bytes "foo/bar.h")⟩

/-! ## C12: no base flag -/

/-- C12 fails on the code: on `prog /foo/bar.h`, without `-b`/`--base` flag,
`parse_args` leaves `base` as the `NULL` it starts as, and `main` passes it to
`process_file`, where `remove_prefix` calls `strlen(NULL)`; the file is not
processed, while the empty base would give the token `FOO_BAR_H`. -/
theorem main_without_base_flag :
    parse_args some [bytes "prog", bytes "/foo/bar.h"] =
      .done ⟨[bytes "/foo/bar.h", bytes "/foo/bar.h"], none, 1⟩ ∧
    (main some (fun _ => Faults.clean) [bytes "prog", bytes "/foo/bar.h"]
      (FS.single (bytes "/foo/bar.h") (bytes "#ifndef X\n#define X\n#endif // X\n"))).1 =
      .crash ∧
    (main some (fun _ => Faults.clean) [bytes "prog", bytes "/foo/bar.h"]
      (FS.single (bytes "/foo/bar.h") (bytes "#ifndef X\n#define X\n#endif // X\n"))).2
      (bytes "/foo/bar.h") = some (bytes "#ifndef X\n#define X\n#endif // X\n") ∧
    (process_file Faults.clean (bytes "") (bytes "/foo/bar.h")
      (FS.single (bytes "/foo/bar.h") (bytes "#ifndef X\n#define X\n#endif // X\n"))).fs
      (bytes "/foo/bar.h") =
      some (bytes "#ifndef FOO_BAR_H\n#define FOO_BAR_H\n#endif // FOO_BAR_H\n") := by
  decide

/-! ## C13: fatal uses of the base flag -/

/-- C13: `parse_args` ends the run with a failure status exactly when some
`-b`/`--base` flag is the last argument, or comes when a base is set already,
or is followed by an argument that cannot be canonicalized; `main` then
returns `EXIT_FAILURE` with the file system untouched.  The loop always ends,
and a command line without flag never fails, whatever its FILE arguments
resolve to. -/
theorem parse_args_fatal (realpath : CStr → Option Path) (flt : Nat → Faults)
    (argv : List CStr) (fs : FS) :
    (parse_args realpath argv = .exit_failure ↔
      fatal_args realpath argv.tail false = true) ∧
    (parse_args realpath argv = .exit_failure →
      main realpath flt argv fs = (.status 1, fs)) ∧
    parse_args realpath argv ≠ .out_of_fuel ∧
    ((∀ a ∈ argv.tail, ¬ (a = bytes "-b" ∨ a = bytes "--base")) →
      parse_args realpath argv ≠ .exit_failure) := by
  have hiff : parse_args realpath argv = .exit_failure ↔
      fatal_args realpath argv.tail false = true := by
    rcases parse_args_spec realpath argv with ⟨hfat, hex⟩ | ⟨hfat, st, hdone, _⟩
    · exact ⟨fun _ => hfat, fun _ => hex⟩
    · constructor
      · intro hc
        rw [hdone] at hc
        cases hc
      · intro hc
        rw [hfat] at hc
        cases hc
  refine ⟨hiff, ?_, ?_, ?_⟩
  · intro hex
    unfold main
    rw [hex]
  · rcases parse_args_spec realpath argv with ⟨_, hex⟩ | ⟨_, st, hdone, _⟩
    · rw [hex]
      simp
    · rw [hdone]
      simp
  · intro hno hex
    have := hiff.1 hex
    rw [fatal_args_no_flag realpath _ false hno] at this
    cases this

/-- Witness for C13: a flag that is the last argument, a second flag after a
base that resolved to `/`, and a flag whose argument does not resolve are
fatal; a FILE argument that does not resolve is not. -/
theorem parse_args_fatal_witness :
    parse_args (fun a => if a = bytes "nope" then none else some a)
      [bytes "prog", bytes "/a/x.h", bytes "-b"] = .exit_failure ∧
    parse_args (fun a => if a = bytes "nope" then none else some a)
      [bytes "prog", bytes "-b", bytes "/", bytes "--base", bytes "/a"] = .exit_failure ∧
    parse_args (fun a => if a = bytes "nope" then none else some a)
      [bytes "prog", bytes "--base", bytes "nope", bytes "/a/x.h"] = .exit_failure ∧
    main (fun a => if a = bytes "nope" then none else some a) (fun _ => Faults.clean)
      [bytes "prog", bytes "--base", bytes "nope", bytes "/a/x.h"]
      (FS.single (bytes "/a/x.h") (bytes "#ifndef X\n#define X\n#endif // X\n")) =
      (.status 1, FS.single (bytes "/a/x.h") (bytes "#ifndef X\n#define X\n#endif // X\n")) ∧
    parse_args (fun a => if a = bytes "nope" then none else some a)
      [bytes "prog", bytes "nope", bytes "/a/x.h"] ≠ .exit_failure :=
  ⟨(parse_args_fatal _ (fun _ => Faults.clean) _ (FS.single [] [])).1.2 (by decide),
    (parse_args_fatal _ (fun _ => Faults.clean) _ (FS.single [] [])).1.2 (by decide),
    (parse_args_fatal _ (fun _ => Faults.clean) _ (FS.single [] [])).1.2 (by decide),
    (parse_args_fatal _ (fun _ => Faults.clean) _ _).2.1
      ((parse_args_fatal _ (fun _ => Faults.clean) _ (FS.single [] [])).1.2 (by decide)),
    (parse_args_fatal _ (fun _ => Faults.clean) _ (FS.single [] [])).2.2.2 (by decide)⟩

/-! ## C14: the file list -/

/-- C14: when `parse_args` returns, the file list is the list of the
canonical paths of the arguments that are neither a flag nor the value of
one, in command-line order, without the arguments that do not resolve;
`file_count` is its length, at most the number of these arguments. -/
theorem parse_args_files (realpath : CStr → Option Path) (argv : List CStr)
    (st : ParseState) (h : parse_args realpath argv = .done st) :
    st.files = (file_args argv.tail).filterMap realpath ∧
    st.file_count = st.files.length ∧
    st.file_count ≤ (file_args argv.tail).length := by
  rcases parse_args_spec realpath argv with ⟨_, hex⟩ | ⟨_, st2, hdone, hfiles, hcount, _, _⟩
  · rw [h] at hex
    cases hex
  · rw [h] at hdone
    cases hdone
    refine ⟨hfiles, by rw [hfiles, hcount], ?_⟩
    rw [hcount]
    exact List.length_filterMap_le _ _

/-- Witness for C14: `prog /a/x.h -b /a nope /a/y.h`, where `nope` does not
resolve. -/
theorem parse_args_files_witness :
    (ParseState.mk [bytes "/a/x.h", bytes "/a/y.h", bytes "-b", bytes "/a", bytes "nope",
        bytes "/a/y.h"] (some (bytes "/a")) 2).files = [bytes "/a/x.h", bytes "/a/y.h"] ∧
    file_args [bytes "/a/x.h", bytes "-b", bytes "/a", bytes "nope", bytes "/a/y.h"] =
      [bytes "/a/x.h", bytes "nope", bytes "/a/y.h"] :=
  have h := parse_args_files (fun a => if a = bytes "nope" then none else some a)
    [bytes "prog", bytes "/a/x.h", bytes "-b", bytes "/a", bytes "nope", bytes "/a/y.h"]
    ⟨[bytes "/a/x.h", bytes "/a/y.h", bytes "-b", bytes "/a", bytes "nope", bytes "/a/y.h"],
      some (bytes "/a"), 2⟩ (by decide)
  ⟨h.1.trans (by decide), by decide⟩

/-! ## C20: the file list is built below the read index -/

/-- Every state the loop of `parse_args` reaches satisfies the invariant,
and the loop of `parse_args` goes on from it. -/
theorem parse_iter_inv (realpath : CStr → Option Path) (argv : List CStr) (n i : Nat)
    (st : ParseState) (h : parse_iter realpath argv n = some (i, st)) :
    parse_inv argv i st ∧
    ∃ fuel, argv.length ≤ i + fuel ∧
      parse_args realpath argv = parse_loop realpath argv.length fuel i st := by
  induction n generalizing i st with
  | zero =>
    simp only [parse_iter, Option.some.injEq, Prod.mk.injEq] at h
    obtain ⟨hi, hst⟩ := h
    subst hi
    subst hst
    exact ⟨parse_inv_init argv, argv.length, by omega, rfl⟩
  | succ n ih =>
    simp only [parse_iter] at h
    cases hp : parse_iter realpath argv n with
    | none => simp [hp] at h
    | some q =>
      obtain ⟨i0, st0⟩ := q
      simp only [hp] at h
      obtain ⟨hinv, fuel, hfuel, hloop⟩ := ih i0 st0 hp
      by_cases hi : i0 < argv.length
      · simp only [hi, if_true] at h
        cases hs : parse_step realpath argv.length i0 st0 with
        | exit_failure => simp [hs] at h
        | next j st2 =>
          simp only [hs, Option.some.injEq, Prod.mk.injEq] at h
          obtain ⟨hj, hst⟩ := h
          subst hj
          subst hst
          obtain ⟨hinv2, hlt⟩ := parse_step_inv realpath argv i0 st0 j st2 hinv hs
          refine ⟨hinv2, ?_⟩
          cases fuel with
          | zero => omega
          | succ fuel =>
            refine ⟨fuel, by omega, ?_⟩
            rw [hloop, parse_loop_succ, if_pos hi, hs]
      · simp [hi] at h

/-- A store of one iteration changes at most the slot `file_count`. -/
theorem parse_step_store (realpath : CStr → Option Path) (argc i : Nat) (st : ParseState)
    (j : Nat) (st2 : ParseState) (hs : parse_step realpath argc i st = .next j st2)
    (k : Nat) (hk : k ≠ st.file_count) : st2.argv[k]? = st.argv[k]? := by
  unfold parse_step at hs
  simp only at hs
  split_ifs at hs
  · split at hs
    · cases hs
    · simp only [Step.next.injEq] at hs
      obtain ⟨_, hst⟩ := hs
      subst hst
      rfl
  · split at hs
    · simp only [Step.next.injEq] at hs
      obtain ⟨_, hst⟩ := hs
      subst hst
      rfl
    · simp only [Step.next.injEq] at hs
      obtain ⟨_, hst⟩ := hs
      subst hst
      exact List.getElem?_set_ne (Ne.symm hk)

/-- C20: at the head of every iteration of the loop of `parse_args`, with
read index `i`, `file_count` is at most `i - 1`, the vector has its original
length and the arguments from `i` on are the original ones; so in an iteration
that runs (`i < argc`) the slot `file_count` of a store lies below `i`, inside
the vector, and the iteration changes no other slot. -/
theorem parse_args_stores_below_read (realpath : CStr → Option Path) (argv : List CStr)
    (n i : Nat) (st : ParseState) (h : parse_iter realpath argv n = some (i, st)) :
    1 ≤ i ∧ st.file_count ≤ i - 1 ∧ st.argv.length = argv.length ∧
    (∀ k, i ≤ k → st.argv[k]? = argv[k]?) ∧
    (i < argv.length → st.file_count < i ∧ st.file_count < st.argv.length) ∧
    (∀ j st2, parse_iter realpath argv (n + 1) = some (j, st2) →
      ∀ k, k ≠ st.file_count → st2.argv[k]? = st.argv[k]?) ∧
    (∃ fuel, parse_args realpath argv = parse_loop realpath argv.length fuel i st) := by
  obtain ⟨⟨h1, h2, h3, h4⟩, fuel, _, hloop⟩ := parse_iter_inv realpath argv n i st h
  refine ⟨h1, by omega, h3, ?_, ?_, ?_, fuel, hloop⟩
  · intro k hk
    obtain ⟨d, rfl⟩ := Nat.exists_eq_add_of_le hk
    rw [← List.getElem?_drop, ← List.getElem?_drop, h4]
  · intro hi
    exact ⟨h2, by omega⟩
  · intro j st2 hnext k hk
    simp only [parse_iter, h] at hnext
    by_cases hi : i < argv.length
    · simp only [hi, if_true] at hnext
      cases hs : parse_step realpath argv.length i st with
      | exit_failure => simp [hs] at hnext
      | next j0 st0 =>
        simp only [hs, Option.some.injEq, Prod.mk.injEq] at hnext
        obtain ⟨_, hst⟩ := hnext
        subst hst
        exact parse_step_store realpath argv.length i st j0 st0 hs k hk
    · simp [hi] at hnext

/-- Witness for C20: on `prog /a/x.h -b /a nope /a/y.h`, the fourth
iteration starts at index 5 with one file stored. -/
theorem parse_args_stores_below_read_witness :
    parse_iter (fun a => if a = bytes "nope" then none else some a)
      [bytes "prog", bytes "/a/x.h", bytes "-b", bytes "/a", bytes "nope", bytes "/a/y.h"] 3 =
      some (5, ⟨[bytes "/a/x.h", bytes "/a/x.h", bytes "-b", bytes "/a", bytes "nope",
        bytes "/a/y.h"], some (bytes "/a"), 1⟩) ∧
    (1 : Nat) ≤ 5 - 1 ∧
    ((1 : Nat) < 5 ∧ (1 : Nat) < (ParseState.mk [bytes "/a/x.h", bytes "/a/x.h", bytes "-b",
        bytes "/a", bytes "nope", bytes "/a/y.h"] (some (bytes "/a")) 1).argv.length) :=
  have h := parse_args_stores_below_read
    (fun a => if a = bytes "nope" then none else some a)
    [bytes "prog", bytes "/a/x.h", bytes "-b", bytes "/a", bytes "nope", bytes "/a/y.h"]
    3 5
    ⟨[bytes "/a/x.h", bytes "/a/x.h", bytes "-b", bytes "/a", bytes "nope", bytes "/a/y.h"],
      some (bytes "/a"), 1⟩ (by decide)
  ⟨by decide, h.2.1, h.2.2.2.2.1 (by decide)⟩

end FixHeaderGuard
